import Mathlib

/-!
Verification of the edit-distance / alignment core (`glu/lib/seqlib/_edits.pyx`).

Sequences are embedded as `List Char`.  The Cython integer loops
(`for i in range(l)` over a `cdef Py_ssize_t` variable) follow C `for`-loop
semantics: after a loop that runs to completion the loop variable equals the
bound, and an empty range still assigns the initial value 0.  All distance
values are natural numbers (the C code stores them in `Py_ssize_t` but they
are always non-negative); alignment scores are integers.

Functions whose C counterparts can raise (`hamming_distance`) or read/write
outside their allocations (`smith_waterman` with an empty input,
`_roll_cigar` on an unknown op code) return `Except`/`Option`, with
`Except.error`/`none` standing for the failure.
-/

namespace Edits

/-- `CigarOp`: one run-length-encoded alignment operation, as produced by
`_roll_cigar` (`CigarOp = namedtuple('CigarOp', 'op count')`). -/
structure CigarOp where
  op : Char
  count : Nat
deriving Repr, DecidableEq

/-- `min3` helper from the source (on distance values). -/
def min3 (a b c : Nat) : Nat := min (min a b) c

/-- `min4` helper from the source (on distance values). -/
def min4 (a b c d : Nat) : Nat := min (min a b) (min c d)

/-- `max4` helper from the source (on alignment scores). -/
def max4 (a b c d : Int) : Int := max (max a b) (max c d)

/-- `max2` helper from the source (on alignment scores). -/
def max2 (a b : Int) : Int := max a b

/-- Loop body of `hamming_distance`: count positions where the two sequences
differ, walking both in lockstep (`for i in range(l1): if ss1[i]!=ss2[i]: d += 1`). -/
def hammingCount : List Char → List Char → Nat
  | a :: s1, b :: s2 => (if a ≠ b then 1 else 0) + hammingCount s1 s2
  | _, _ => 0

/-- `hamming_distance(s1, s2)`: raises `ValueError('Length mismatch')` when the
lengths differ, otherwise counts differing positions. -/
def hamming_distance (s1 s2 : List Char) : Except String Nat :=
  if s1.length ≠ s2.length then Except.error "Length mismatch"
  else Except.ok (hammingCount s1 s2)

/-- The first loop of `reduce_match`: index of the first mismatching position
(`for i in range(l): if ss1[i]!=ss2[i]: break`); equals `min l1 l2` when no
mismatch occurs among the first `min l1 l2` positions (C loop semantics). -/
def lcpLen : List Char → List Char → Nat
  | a :: s1, b :: s2 => if a = b then lcpLen s1 s2 + 1 else 0
  | _, _ => 0

/-- `reduce_match(s1, s2)`: strip the common prefix (length `i`) and the
common suffix (length `j`, scanned only while `j < min l1 l2 - i`), returning
`(s1[i:l1-j], s2[i:l2-j], i)`. -/
def reduce_match (s1 s2 : List Char) : List Char × List Char × Nat :=
  let l1 := s1.length
  let l2 := s2.length
  let l := min l1 l2
  let i := lcpLen s1 s2
  let j := min (lcpLen s1.reverse s2.reverse) (l - i)
  ((s1.take (l1 - j)).drop i, (s2.take (l2 - j)).drop i, i)

/-- Inner loop of `levenshtein_distance`: given `c1 = s1[i]`, the remaining
characters of `s2`, the running value `current[j]` and the previous row from
index `j` on (`previous[j] :: previous[j+1] :: ...`), produce the cells
`current[j+1], ..., current[m]`. -/
def levRow (c1 : Char) : List Char → Nat → List Nat → List Nat
  | c2 :: s2, cur0, p0 :: p1 :: pt =>
    let cost : Nat := if c1 = c2 then 0 else 1
    let cell := min3 (p0 + cost) (cur0 + 1) (p1 + 1)
    cell :: levRow c1 s2 cell (p1 :: pt)
  | _, _, _ => []

/-- Outer loop of `levenshtein_distance`: fold over the characters of `s1`,
carrying the 1-based row number `r` (so `current[0] = r`) and the previous
cost row. -/
def levRows (s2 : List Char) : List Char → Nat → List Nat → List Nat
  | [], _, cur => cur
  | c1 :: s1, r, cur => levRows s2 s1 (r + 1) (r :: levRow c1 s2 r cur)

/-- Post-reduction stage of `levenshtein_distance`: force `s2` to the shorter
sequence, fast-path when `s2` is empty, otherwise run the two-row DP and
return `current[m]`. -/
def levPost (s1 s2 : List Char) : Nat :=
  let p := if s1.length < s2.length then (s2, s1) else (s1, s2)
  let t1 := p.1
  let t2 := p.2
  if t2.isEmpty then t1.length
  else (levRows t2 t1 1 (List.range (t2.length + 1))).getLastD 0

/-- `levenshtein_distance(s1, s2)`: reduce the problem by removing any common
prefix or suffix, then run the post-reduction stage. -/
def levenshtein_distance (sA sB : List Char) : Nat :=
  let r := reduce_match sA sB
  levPost r.1 r.2.1

/-- Inner loop of `damerau_levenshtein_distance`.  `p1c` is `s1[i-1]` (absent
on the first row), `pc2` is `s2[j-1]` (absent at `j = 0`), `qprev` is
`previous2[j-1]` (unread at `j = 0`), `prev` is `previous1` from index `j` on
and `prev2` is `previous2` from index `j` on. -/
def damRow (c1 : Char) (p1c : Option Char) :
    List Char → Option Char → Nat → Nat → List Nat → List Nat → List Nat
  | c2 :: s2, pc2, qprev, cur0, p0 :: p1 :: pt, q0 :: qt =>
    let cost : Nat := if c1 = c2 then 0 else 1
    let m := p0 + cost
    let ins := cur0 + 1
    let del := p1 + 1
    let tr :=
      match p1c, pc2 with
      | some d1, some d2 => if c1 = d2 ∧ d1 = c2 then qprev + 1 else m
      | _, _ => m
    let cell := min4 m ins del tr
    cell :: damRow c1 p1c s2 (some c2) q0 cell (p1 :: pt) qt
  | _, _, _, _, _, _ => []

/-- Outer loop of `damerau_levenshtein_distance`: fold over `s1`, carrying the
previous character of `s1`, the 1-based row number, and the two previous cost
rows (`cur` is row `r-1`, `prev` is row `r-2`). -/
def damRows (s2 : List Char) : List Char → Option Char → Nat → List Nat → List Nat → List Nat
  | [], _, _, cur, _ => cur
  | c1 :: s1, p1c, r, cur, prev =>
    damRows s2 s1 (some c1) (r + 1) (r :: damRow c1 p1c s2 none 0 r cur prev) cur

/-- Post-reduction stage of `damerau_levenshtein_distance`: force `s2` to the
shorter sequence, fast-path when `s1` is empty, otherwise run the three-row DP
and return `current[m]`. -/
def damPost (s1 s2 : List Char) : Nat :=
  let p := if s1.length < s2.length then (s2, s1) else (s1, s2)
  let t1 := p.1
  let t2 := p.2
  if t1.isEmpty then t2.length
  else
    (damRows t2 t1 none 1 (List.range (t2.length + 1))
      (List.replicate (t2.length + 1) 0)).getLastD 0

/-- `damerau_levenshtein_distance(s1, s2)`: reduce the problem by removing any
common prefix or suffix, then run the post-reduction stage. -/
def damerau_levenshtein_distance (sA sB : List Char) : Nat :=
  let r := reduce_match sA sB
  damPost r.1 r.2.1

/-- `_op_str`: recognize an op code, failing (`ValueError('Unknown op')`) on
anything outside the recognized set. -/
def opStr (c : Char) : Option Char :=
  if c = 'S' then some 'S'
  else if c = 'N' then some 'N'
  else if c = 'M' then some 'M'
  else if c = '=' then some '='
  else if c = 'X' then some 'X'
  else if c = 'I' then some 'I'
  else if c = 'D' then some 'D'
  else if c = 'T' then some 'T'
  else none

/-- Run-length-encoding loop at the end of `_roll_cigar`
(`for k in range(k-1,-1,-1): ...`): the input list here is the `igar` buffer
already reversed, `op`/`count` the pending run (initially `'\x00'`/`0`), and
`acc` the runs emitted so far. -/
def rleGo : List Char → Char → Nat → List CigarOp → Option (List CigarOp)
  | [], op, count, acc =>
    if count ≠ 0 then (opStr op).map (fun o => acc ++ [⟨o, count⟩]) else some acc
  | c :: rest, op, count, acc =>
    if c = op then rleGo rest op (count + 1) acc
    else if count ≠ 0 then
      (opStr op).bind (fun o => rleGo rest c 1 (acc ++ [⟨o, count⟩]))
    else rleGo rest c 1 acc

/-- Backward walk of `_roll_cigar` (`while i>=0 and j>=0`), including the two
trailing skip loops.  `m'` is the (already decremented) value of `m`, i.e.
`max_j + 1`, used as the row stride into `edits`; an unrecognized op code
raises `ValueError('Invalid edit operation')`, embedded as `none`.  The
`fuel` argument makes the recursion structural; every loop step decreases
`i + j` by at least one, so starting from `(i + j + 2).toNat` (see `swWalk`)
the fuel never runs out while `i ≥ 0` and `j ≥ 0`. -/
def swWalkF (m' : Nat) (edits : List Char) : Nat → Int → Int → Option (List Char)
  | 0, i, j =>
    if i < 0 ∨ j < 0 then
      some (List.replicate (j + 1).toNat 'N' ++ List.replicate (i + 1).toNat 'S')
    else none
  | fuel + 1, i, j =>
    if i < 0 ∨ j < 0 then
      some (List.replicate (j + 1).toNat 'N' ++ List.replicate (i + 1).toNat 'S')
    else
      let op := edits.getD (m' * i.toNat + j.toNat) '?'
      if op = 'M' ∨ op = '=' ∨ op = 'X' then
        (swWalkF m' edits fuel (i - 1) (j - 1)).map (fun w => op :: w)
      else if op = 'D' then (swWalkF m' edits fuel (i - 1) j).map (fun w => op :: w)
      else if op = 'I' then (swWalkF m' edits fuel i (j - 1)).map (fun w => op :: w)
      else if op = 'T' then (swWalkF m' edits fuel (i - 2) (j - 2)).map (fun w => op :: w)
      else none

/-- The backward walk, started with enough fuel for its termination measure. -/
def swWalk (m' : Nat) (edits : List Char) (i j : Int) : Option (List Char) :=
  swWalkF m' edits (i + j + 2).toNat i j

/-- The full symbol stream written into the `igar` buffer by `_roll_cigar`:
leading `'S'`/`'N'` skips (the first two `while` loops, which decrement `n`
and `m`), then the backward walk with its trailing skips. -/
def igarStream (n m i0 j0 : Nat) (edits : List Char) : Option (List Char) :=
  (swWalk (j0 + 1) edits (i0 : Int) (j0 : Int)).map
    (fun w => List.replicate (n - 1 - i0) 'S' ++ List.replicate (m - 1 - j0) 'N' ++ w)

/-- `_roll_cigar(n, m, i, j, edits)`: emit the symbol stream, then
run-length-encode it in reverse order. -/
def rollCigar (n m i0 j0 : Nat) (edits : List Char) : Option (List CigarOp) :=
  (igarStream n m i0 j0 edits).bind (fun s => rleGo s.reverse '\x00' 0 [])

/-- Inner loop of `smith_waterman`: given `c1 = s1[i]`, the remaining
characters of `s2`, the running `cost[(m+1)*(i+1)+j]` and the previous cost
row from index `j` on, produce the new cells `cost[(m+1)*(i+1)+j+1] ...` and
the recorded ops `edits[m*i+j] ...`. -/
def swRow (ms mms g : Int) (c1 : Char) : List Char → Int → List Int → List Int × List Char
  | c2 :: s2, cur0, p0 :: p1 :: pt =>
    let mtch := p0 + (if c1 = c2 then ms else mms)
    let ins := cur0 + g
    let del := p1 + g
    let mc := max4 0 mtch ins del
    let op :=
      if mc = mtch ∧ c1 = c2 then '='
      else if mc = mtch then 'X'
      else if mc = ins then 'I'
      else 'D'
    let r := swRow ms mms g c1 s2 mc (p1 :: pt)
    (mc :: r.1, op :: r.2)
  | _, _, _ => ([], [])

/-- Outer loop of `smith_waterman`: fold over `s1`, producing all cost rows
past row 0 (each with its leading `cost[(m+1)*(i+1)] = 0`), the flat
row-major `edits` matrix, and the flat row-major list of inner cell values
(used for the running maximum). -/
def swFill (ms mms g : Int) (s2 : List Char) :
    List Char → List Int → List (List Int) × List Char × List Int
  | [], _ => ([], [], [])
  | c1 :: s1, prev =>
    let r := swRow ms mms g c1 s2 0 prev
    let rest := swFill ms mms g s2 s1 (0 :: r.1)
    ((0 :: r.1) :: rest.1, r.2 ++ rest.2.1, r.1 ++ rest.2.2)

/-- The running maximum (`if mcost>max_cost: ...`): first strictly greater
value in row-major order, starting from `max_cost = 0` at flat index 0. -/
def scanMax : List Int → Nat → Int × Nat → Int × Nat
  | [], _, best => best
  | v :: t, idx, best => scanMax t (idx + 1) (if v > best.1 then (v, idx) else best)

/-- `smith_waterman(s1, s2, match_score, mismatch_score, gap_score)`.  When
either sequence is empty the C code reads past its allocations (the final
`cost[(m+1)*(max_i+1)+max_j+1]` read and the `edits` reads in `_roll_cigar`
fall outside the buffers); that case is embedded as `none`. -/
def smith_waterman (s1 s2 : List Char) (ms mms g : Int) : Option (Int × List CigarOp) :=
  let n := s1.length
  let m := s2.length
  if n = 0 ∨ m = 0 then none
  else
    let row0 : List Int := List.replicate (m + 1) 0
    let f := swFill ms mms g s2 s1 row0
    let best := scanMax f.2.2 0 (0, 0)
    let mi := best.2 / m
    let mj := best.2 % m
    let score := ((row0 :: f.1).getD (mi + 1) []).getD (mj + 1) 0
    (rollCigar n m mi mj f.2.1).map (fun cig => (score, cig))

/-- The `igar` symbol stream produced inside a `smith_waterman` call (the
sequence of bytes `_roll_cigar` writes into its `malloc(max2(n,m))` buffer). -/
def swIgar (s1 s2 : List Char) (ms mms g : Int) : Option (List Char) :=
  let n := s1.length
  let m := s2.length
  if n = 0 ∨ m = 0 then none
  else
    let f := swFill ms mms g s2 s1 (List.replicate (m + 1) 0)
    let best := scanMax f.2.2 0 (0, 0)
    igarStream n m (best.2 / m) (best.2 % m) f.2.1

/-- Inner loop of `smith_waterman_gotoh`: like `swRow` but with the two
auxiliary gap rows; `curG0` is the running `gap1[(m+1)*(i+1)+j]`, `prev` the
previous cost row from index `j` on, and `prevG2` the previous `gap2` row
from index `j` on.  Returns the new cost cells, the new `gap2` cells and the
recorded ops. -/
def gotohRow (ms mms go ge : Int) (c1 : Char) :
    List Char → Int → Int → List Int → List Int → List Int × List Int × List Char
  | c2 :: s2, cur0, curG0, p0 :: p1 :: pt, _q0 :: q1 :: qt =>
    let mtch := p0 + (if c1 = c2 then ms else mms)
    let ins := max2 (curG0 + ge) (cur0 + go)
    let del := max2 (q1 + ge) (p1 + go)
    let mc := max4 0 mtch ins del
    let op :=
      if mc = mtch ∧ c1 = c2 then '='
      else if mc = mtch then 'X'
      else if mc = ins then 'I'
      else 'D'
    let r := gotohRow ms mms go ge c1 s2 mc ins (p1 :: pt) (q1 :: qt)
    (mc :: r.1, del :: r.2.1, op :: r.2.2)
  | _, _, _, _, _ => ([], [], [])

/-- Outer loop of `smith_waterman_gotoh`: fold over `s1`, carrying the
previous cost row and the previous `gap2` row.  Returns all cost rows past
row 0, the flat `edits` matrix and the flat inner cell values. -/
def gotohFill (ms mms go ge : Int) (s2 : List Char) :
    List Char → List Int → List Int → List (List Int) × List Char × List Int
  | [], _, _ => ([], [], [])
  | c1 :: s1, prev, prevG2 =>
    let r := gotohRow ms mms go ge c1 s2 0 0 prev prevG2
    let rest := gotohFill ms mms go ge s2 s1 (0 :: r.1) (0 :: r.2.1)
    ((0 :: r.1) :: rest.1, r.2.2 ++ rest.2.1, r.1 ++ rest.2.2)

/-- `smith_waterman_gotoh(s1, s2, match_score, mismatch_score,
gap_open_score, gap_extend_score)`: falls back to `smith_waterman` when
`gap_open_score == gap_extend_score`, otherwise runs the affine-gap DP.  As
for `smith_waterman`, an empty input (out-of-bounds reads in the C code) is
embedded as `none`. -/
def smith_waterman_gotoh (s1 s2 : List Char) (ms mms go ge : Int) :
    Option (Int × List CigarOp) :=
  if go = ge then smith_waterman s1 s2 ms mms go
  else
    let n := s1.length
    let m := s2.length
    if n = 0 ∨ m = 0 then none
    else
      let row0 : List Int := List.replicate (m + 1) 0
      let f := gotohFill ms mms go ge s2 s1 row0 row0
      let best := scanMax f.2.2 0 (0, 0)
      let mi := best.2 / m
      let mj := best.2 % m
      let score := ((row0 :: f.1).getD (mi + 1) []).getD (mj + 1) 0
      (rollCigar n m mi mj f.2.1).map (fun cig => (score, cig))

/-! ### Specification-side definitions -/

/-- Modelled from the spec: `cigar_to_string` (defined in the out-of-core
module `glu.lib.seqlib.edits`) renders a script as count/op pairs, e.g.
`"1N1=1N"`. -/
def cigarToString (cig : List CigarOp) : String :=
  String.join (cig.map (fun c => toString c.count ++ String.singleton c.op))

/-- Spec-side longest-common-prefix length: the greatest `n` bounded by the
shorter length with `A.take n = B.take n`. -/
def specLcp (A B : List Char) : Nat :=
  Nat.findGreatest (fun n => A.take n = B.take n) (min A.length B.length)

/-- Spec-side longest-common-suffix length: the greatest `n` bounded by the
shorter length with the last `n` elements equal. -/
def specLcsuf (A B : List Char) : Nat :=
  Nat.findGreatest (fun n => A.drop (A.length - n) = B.drop (B.length - n))
    (min A.length B.length)

/-- Per-symbol score contribution of one flat alignment op, per the spec:
`match_score` per `'='`, `mismatch_score` per `'X'`, the gap cost per
`'I'`/`'D'`, nothing for skips. -/
def charScore (ms mms g : Int) (c : Char) : Int :=
  if c = '=' then ms
  else if c = 'X' then mms
  else if c = 'I' ∨ c = 'D' then g
  else 0

/-- Total per-op contribution of a script under the linear gap model. -/
def cigarScore (ms mms g : Int) (cig : List CigarOp) : Int :=
  (cig.map (fun r => charScore ms mms g r.op * (r.count : Int))).sum

/-- Expansion of a script into its flat per-position op sequence. -/
def expandCigar (cig : List CigarOp) : List Char :=
  (cig.map (fun r => List.replicate r.count r.op)).flatten

/-- A script is maximal-run encoded: adjacent ops differ and counts are
positive. -/
def goodCigar (cig : List CigarOp) : Prop :=
  List.Chain' (fun a b => a.op ≠ b.op) cig ∧ ∀ r ∈ cig, 0 < r.count

/-- Re-encoding a flat (alignment-order) op sequence with the run-length
encoder of `_roll_cigar`. -/
def reEncode (flat : List Char) : Option (List CigarOp) :=
  rleGo flat '\x00' 0 []

/-- The DP cost cell `cost[(m+1)*a+b]` viewed through the row list, with
out-of-range (and negative) indices reading the boundary value 0. -/
def cellAt (rows : List (List Int)) (a b : Int) : Int :=
  (rows.getD a.toNat []).getD b.toNat 0

/-- Value-consistency of the backward walk of `smith_waterman`: at every
visited cell the recorded operation's candidate value equals the stored cell
value (this fails at cells clamped to zero where no candidate reaches zero,
and at cells misread through the decremented stride). -/
def swWalkOkF (m' : Nat) (edits : List Char) (rows : List (List Int))
    (ms mms g : Int) : Nat → Int → Int → Bool
  | 0, i, j => if i < 0 ∨ j < 0 then true else false
  | fuel + 1, i, j =>
    if i < 0 ∨ j < 0 then true
    else
      let op := edits.getD (m' * i.toNat + j.toNat) '?'
      let v := cellAt rows (i + 1) (j + 1)
      if op = '=' then
        v == cellAt rows i j + ms && swWalkOkF m' edits rows ms mms g fuel (i - 1) (j - 1)
      else if op = 'X' then
        v == cellAt rows i j + mms && swWalkOkF m' edits rows ms mms g fuel (i - 1) (j - 1)
      else if op = 'I' then
        v == cellAt rows (i + 1) j + g && swWalkOkF m' edits rows ms mms g fuel i (j - 1)
      else if op = 'D' then
        v == cellAt rows i (j + 1) + g && swWalkOkF m' edits rows ms mms g fuel (i - 1) j
      else false

/-- Value-consistency of the backward walk, started with the same fuel as
`swWalk`. -/
def swWalkOk (m' : Nat) (edits : List Char) (rows : List (List Int))
    (ms mms g : Int) (i j : Int) : Bool :=
  swWalkOkF m' edits rows ms mms g (i + j + 2).toNat i j

/-- Per-symbol score contribution under the affine gap model, per the spec:
`match_score` per `'='`, `mismatch_score` per `'X'`, and for `'I'`/`'D'`
`gap_extend_score` when the symbol extends a gap run (`ext`) and
`gap_open_score` when it opens one; skips contribute nothing. -/
def affCharScore (ms mms go ge : Int) (c : Char) (ext : Bool) : Int :=
  if c = '=' then ms
  else if c = 'X' then mms
  else if c = 'I' ∨ c = 'D' then (if ext then ge else go)
  else 0

/-- Affine score of a flat op sequence in emission (backward) order: an
`'I'`/`'D'` extends its gap run exactly when the next emitted symbol carries
the same op. -/
def affFlat (ms mms go ge : Int) : List Char → Int
  | [] => 0
  | c :: rest => affCharScore ms mms go ge c (rest.head? == some c) + affFlat ms mms go ge rest

/-- Affine score of a flat op sequence in forward (script) order, carrying
the previous symbol `p`: a symbol extends a run exactly when it repeats `p`. -/
def flatFwd (ms mms go ge : Int) : List Char → Char → Int
  | [], _ => 0
  | c :: rest, p => affCharScore ms mms go ge c (p == c) + flatFwd ms mms go ge rest c

/-- Affine score of one run of `k` equal ops: `match_score`/`mismatch_score`
per symbol, `gap_open_score + (k-1) * gap_extend_score` per gap run, nothing
for skips. -/
def runScore (ms mms go ge : Int) (c : Char) (k : Nat) : Int :=
  if c = '=' then ms * k
  else if c = 'X' then mms * k
  else if c = 'I' ∨ c = 'D' then (if k = 0 then 0 else go + ge * ((k - 1 : Nat) : Int))
  else 0

/-- Total per-run contribution of a script under the affine gap model. -/
def affineCigarScore (ms mms go ge : Int) (cig : List CigarOp) : Int :=
  (cig.map (fun r => runScore ms mms go ge r.op r.count)).sum

/-- Value-consistency of the backward walk of `smith_waterman_gotoh` under
the affine gap model: at every `'I'`/`'D'` cell, the stored cell value must
differ from its predecessor by `gap_extend_score` when the next walked cell
continues the same gap and by `gap_open_score` otherwise; matches and
mismatches are checked as in the linear model. -/
def gotohWalkOkF (m' : Nat) (edits : List Char) (rows : List (List Int))
    (ms mms go ge : Int) : Nat → Int → Int → Bool
  | 0, i, j => if i < 0 ∨ j < 0 then true else false
  | fuel + 1, i, j =>
    if i < 0 ∨ j < 0 then true
    else
      let op := edits.getD (m' * i.toNat + j.toNat) '?'
      let v := cellAt rows (i + 1) (j + 1)
      if op = '=' then
        v == cellAt rows i j + ms && gotohWalkOkF m' edits rows ms mms go ge fuel (i - 1) (j - 1)
      else if op = 'X' then
        v == cellAt rows i j + mms && gotohWalkOkF m' edits rows ms mms go ge fuel (i - 1) (j - 1)
      else if op = 'I' then
        let ext := decide (0 ≤ j - 1) && (edits.getD (m' * i.toNat + (j - 1).toNat) '?' == 'I')
        v == cellAt rows (i + 1) j + (if ext then ge else go) &&
          gotohWalkOkF m' edits rows ms mms go ge fuel i (j - 1)
      else if op = 'D' then
        let ext := decide (0 ≤ i - 1) && (edits.getD (m' * (i - 1).toNat + j.toNat) '?' == 'D')
        v == cellAt rows i (j + 1) + (if ext then ge else go) &&
          gotohWalkOkF m' edits rows ms mms go ge fuel (i - 1) j
      else false

/-- Affine value-consistency of the backward walk, started with the same
fuel as `swWalk`. -/
def gotohWalkOk (m' : Nat) (edits : List Char) (rows : List (List Int))
    (ms mms go ge : Int) (i j : Int) : Bool :=
  gotohWalkOkF m' edits rows ms mms go ge (i + j + 2).toNat i j

/-- Value-consistency of the whole backward walk performed by a
`smith_waterman` call. -/
def swConsistent (s1 s2 : List Char) (ms mms g : Int) : Bool :=
  let n := s1.length
  let m := s2.length
  if n = 0 ∨ m = 0 then false
  else
    let row0 : List Int := List.replicate (m + 1) 0
    let f := swFill ms mms g s2 s1 row0
    let best := scanMax f.2.2 0 (0, 0)
    swWalkOk (best.2 % m + 1) f.2.1 (row0 :: f.1) ms mms g (best.2 / m) (best.2 % m)

/-- Value-consistency of the whole backward walk performed by a
`smith_waterman_gotoh` call: the linear-model check when it delegates, the
affine-model check otherwise. -/
def gotohConsistent (s1 s2 : List Char) (ms mms go ge : Int) : Bool :=
  if go = ge then swConsistent s1 s2 ms mms go
  else
    let n := s1.length
    let m := s2.length
    if n = 0 ∨ m = 0 then false
    else
      let row0 : List Int := List.replicate (m + 1) 0
      let f := gotohFill ms mms go ge s2 s1 row0 row0
      let best := scanMax f.2.2 0 (0, 0)
      gotohWalkOk (best.2 % m + 1) f.2.1 (row0 :: f.1) ms mms go ge
        (best.2 / m) (best.2 % m)

/-! ### Theorems -/

/-- C1: the Smith-Waterman engine reproduces the spec's worked examples:
`smith_waterman("b","abc")` with default scores returns score 1 and the
script `"1N1=1N"`, and `smith_waterman("abcbd","acd", match_score=2)`
returns score 4 and the script `"1=1D1=1D1="`. -/
theorem smith_waterman_worked_examples :
    smith_waterman "b".toList "abc".toList 1 (-1) (-1) =
      some (1, [⟨'N', 1⟩, ⟨'=', 1⟩, ⟨'N', 1⟩]) ∧
    cigarToString [⟨'N', 1⟩, ⟨'=', 1⟩, ⟨'N', 1⟩] = "1N1=1N" ∧
    smith_waterman "abcbd".toList "acd".toList 2 (-1) (-1) =
      some (4, [⟨'=', 1⟩, ⟨'D', 1⟩, ⟨'=', 1⟩, ⟨'D', 1⟩, ⟨'=', 1⟩]) ∧
    cigarToString [⟨'=', 1⟩, ⟨'D', 1⟩, ⟨'=', 1⟩, ⟨'D', 1⟩, ⟨'=', 1⟩] = "1=1D1=1D1=" := by
  refine ⟨by decide, rfl, by decide, rfl⟩

/-- C3: when `gap_open_score == gap_extend_score`, `smith_waterman_gotoh`
delegates to `smith_waterman` with `gap_score` set to that shared value, so
the two calls return identical (score, script) pairs on every input. -/
theorem smith_waterman_gotoh_delegates (s1 s2 : List Char) (ms mms g : Int) :
    smith_waterman_gotoh s1 s2 ms mms g g = smith_waterman s1 s2 ms mms g := by
  simp [smith_waterman_gotoh]

/-- C8: the edit-distance engines reproduce the spec's concrete cases. -/
theorem edit_distance_concrete_cases :
    levenshtein_distance "ac".toList "abc".toList = 1 ∧
    levenshtein_distance "ba".toList "ab".toList = 2 ∧
    damerau_levenshtein_distance "ba".toList "ab".toList = 1 ∧
    damerau_levenshtein_distance "fee".toList "deed".toList = 2 := by
  refine ⟨by decide, by decide, by decide, by decide⟩

/-- C10: refutation of the claimed bound.  On `smith_waterman("xa","ya")`
with default scores the backtracker emits 3 symbols into the `igar` buffer,
while the buffer is allocated with `max2(n,m) = 2` elements: the third write
`igar[2]` is out of bounds. -/
theorem roll_cigar_buffer_overflow :
    swIgar "xa".toList "ya".toList 1 (-1) (-1) = some ['=', 'D', 'N'] ∧
    (['=', 'D', 'N'] : List Char).length = 3 ∧
    max "xa".toList.length "ya".toList.length = 2 := by
  refine ⟨by decide, rfl, rfl⟩

/-- C4 (counterexample): on `smith_waterman("xa","ya")` with default scores
the returned score is 1 but the per-op contribution sum of the returned
script `"1N1D1="` is `0 ≠ 1`. -/
theorem script_score_sum_counterexample :
    smith_waterman "xa".toList "ya".toList 1 (-1) (-1) =
      some (1, [⟨'N', 1⟩, ⟨'D', 1⟩, ⟨'=', 1⟩]) ∧
    cigarScore 1 (-1) (-1) [⟨'N', 1⟩, ⟨'D', 1⟩, ⟨'=', 1⟩] ≠ 1 := by
  refine ⟨by decide, by decide⟩

/-- The lockstep difference count of `hamming_distance` agrees with the
per-index count over `List.range`. -/
theorem hammingCount_eq_countP (s1 s2 : List Char) (h : s1.length = s2.length) :
    hammingCount s1 s2 =
      (List.range s1.length).countP
        (fun idx => decide (s1.getD idx 'a' ≠ s2.getD idx 'a')) := by
  induction s1 generalizing s2 with
  | nil => simp [hammingCount]
  | cons a t ih =>
    cases s2 with
    | nil => simp at h
    | cons b t2 =>
      simp only [List.length_cons, Nat.succ_eq_add_one] at h
      have h' : t.length = t2.length := by omega
      simp only [hammingCount, List.length_cons, List.range_succ_eq_map,
        List.countP_cons, List.countP_map, ih t2 h']
      simp [Function.comp_def, List.getD_cons_succ, List.getD_cons_zero]
      omega

/-- C5: for equal-length sequences `hamming_distance` returns (without
failing) the count of index positions where the symbols differ; for unequal
lengths it fails with the length-mismatch error and no partial result. -/
theorem hamming_distance_spec (s1 s2 : List Char) :
    hamming_distance s1 s2 =
      if s1.length = s2.length then
        Except.ok ((List.range s1.length).countP
          (fun idx => decide (s1.getD idx 'a' ≠ s2.getD idx 'a')))
      else Except.error "Length mismatch" := by
  by_cases h : s1.length = s2.length
  · simp [hamming_distance, h, hammingCount_eq_countP s1 s2 h]
  · simp [hamming_distance, h]

/-! ### `reduce_match` against the spec's prefix/suffix description (C7) -/

theorem lcpLen_le_min (a b : List Char) : lcpLen a b ≤ min a.length b.length := by
  induction a generalizing b with
  | nil => cases b <;> simp [lcpLen]
  | cons x t ih =>
    cases b with
    | nil => simp [lcpLen]
    | cons y t2 =>
      by_cases h : x = y
      · have := ih t2
        simp only [lcpLen, if_pos h, List.length_cons]
        omega
      · simp [lcpLen, h]

theorem take_lcpLen_eq (a b : List Char) :
    a.take (lcpLen a b) = b.take (lcpLen a b) := by
  induction a generalizing b with
  | nil => cases b <;> simp [lcpLen]
  | cons x t ih =>
    cases b with
    | nil => simp [lcpLen]
    | cons y t2 =>
      by_cases h : x = y
      · simp [lcpLen, h, ih t2]
      · simp [lcpLen, h]

theorem le_lcpLen_of_take_eq (a b : List Char) (n : Nat) (ha : n ≤ a.length)
    (hb : n ≤ b.length) (h : a.take n = b.take n) : n ≤ lcpLen a b := by
  induction a generalizing b n with
  | nil => simp at ha; omega
  | cons x t ih =>
    cases n with
    | zero => omega
    | succ n =>
      cases b with
      | nil => simp at hb
      | cons y t2 =>
        simp only [List.take_succ_cons, List.cons.injEq] at h
        simp only [List.length_cons] at ha hb
        have := ih t2 n (by omega) (by omega) h.2
        simp [lcpLen, h.1]
        omega

theorem lcpLen_self (a : List Char) : lcpLen a a = a.length := by
  induction a with
  | nil => simp [lcpLen]
  | cons x t ih => simp [lcpLen, ih]

theorem specLcp_eq_lcpLen (A B : List Char) : specLcp A B = lcpLen A B := by
  rw [specLcp, Nat.findGreatest_eq_iff]
  refine ⟨lcpLen_le_min A B, fun _ => take_lcpLen_eq A B, ?_⟩
  intro n hlt hle hP
  have h1 : n ≤ A.length := le_trans hle (min_le_left _ _)
  have h2 : n ≤ B.length := le_trans hle (min_le_right _ _)
  exact absurd (le_lcpLen_of_take_eq A B n h1 h2 hP) (by omega)

theorem specLcsuf_eq_lcpLen_reverse (A B : List Char) :
    specLcsuf A B = lcpLen A.reverse B.reverse := by
  rw [specLcsuf, Nat.findGreatest_eq_iff]
  refine ⟨?_, ?_, ?_⟩
  · have := lcpLen_le_min A.reverse B.reverse
    simpa using this
  · intro _
    have h := take_lcpLen_eq A.reverse B.reverse
    rw [List.take_reverse, List.take_reverse, List.reverse_inj] at h
    exact h
  · intro n hlt hle hP
    have h1 : n ≤ A.length := le_trans hle (min_le_left _ _)
    have h2 : n ≤ B.length := le_trans hle (min_le_right _ _)
    have h : A.reverse.take n = B.reverse.take n := by
      rw [List.take_reverse, List.take_reverse, List.reverse_inj]
      exact hP
    have := le_lcpLen_of_take_eq A.reverse B.reverse n (by simpa using h1)
      (by simpa using h2) h
    omega

/-- C7: `reduce_match(A, B)` returns `(A', B', k)` where `k` is the length of
the longest common prefix, and `A'`, `B'` are `A`, `B` with that prefix and
the longest common suffix removed, the suffix removal capped at
`min |A| |B| - k` so that the two scans never overlap beyond the shorter
sequence; in particular `reduce_match(A, A) = ("", "", |A|)`. -/
theorem reduce_match_spec (A B : List Char) :
    reduce_match A B =
      ((A.take (A.length -
          min (specLcsuf A B) (min A.length B.length - specLcp A B))).drop (specLcp A B),
       (B.take (B.length -
          min (specLcsuf A B) (min A.length B.length - specLcp A B))).drop (specLcp A B),
       specLcp A B) ∧
    reduce_match A A = ([], [], A.length) := by
  constructor
  · simp only [reduce_match, specLcp_eq_lcpLen, specLcsuf_eq_lcpLen_reverse]
  · have hl : lcpLen A A = A.length := lcpLen_self A
    simp [reduce_match, hl]

/-! ### Idempotence of `reduce_match` and preservation of the distances (C2) -/

theorem lcpLen_nil_left (b : List Char) : lcpLen [] b = 0 := by
  cases b <;> rfl

theorem lcpLen_nil_right (a : List Char) : lcpLen a [] = 0 := by
  cases a <;> rfl

theorem lcpLen_eq_zero_of_head_ne (a b : List Char) (h : a.head? ≠ b.head?) :
    lcpLen a b = 0 := by
  cases a with
  | nil => exact lcpLen_nil_left b
  | cons x t =>
    cases b with
    | nil => exact lcpLen_nil_right _
    | cons y t2 =>
      simp only [List.head?_cons, ne_eq, Option.some.injEq] at h
      simp [lcpLen, h]

theorem lcpLen_get_ne (a b : List Char) (ha : lcpLen a b < a.length)
    (hb : lcpLen a b < b.length) : a[lcpLen a b]? ≠ b[lcpLen a b]? := by
  induction a generalizing b with
  | nil => simp at ha
  | cons x t ih =>
    cases b with
    | nil => simp at hb
    | cons y t2 =>
      by_cases h : x = y
      · simp only [lcpLen, if_pos h, List.length_cons] at ha hb ⊢
        simpa using ih t2 (by omega) (by omega)
      · simp [lcpLen, h]

theorem slice_len (A : List Char) (i t : Nat) (ht : t ≤ A.length) :
    ((A.take t).drop i).length = t - i := by
  rw [List.length_drop, List.length_take]; omega

theorem slice_head (A : List Char) (i t : Nat) (h : i < t) :
    ((A.take t).drop i).head? = A[i]? := by
  rw [List.head?_eq_getElem?, List.getElem?_drop, Nat.add_zero, List.getElem?_take,
    if_pos h]

theorem slice_last (A : List Char) (i t : Nat) (h : i < t) (ht : t ≤ A.length) :
    ((A.take t).drop i).getLast? = A[t - 1]? := by
  rw [List.getLast?_eq_getElem?, slice_len A i t ht, List.getElem?_drop]
  have he : i + (t - i - 1) = t - 1 := by omega
  rw [he, List.getElem?_take, if_pos (by omega)]

/-- Applying `reduce_match` to its own trimmed outputs changes nothing: the
outputs have no further common prefix or (within the scan bound) suffix. -/
theorem reduce_match_idem (A B : List Char) :
    reduce_match (reduce_match A B).1 (reduce_match A B).2.1 =
      ((reduce_match A B).1, (reduce_match A B).2.1, 0) := by
  rcases h : reduce_match A B with ⟨a', b', k⟩
  simp only
  have ha : a' = (A.take (A.length -
      min (lcpLen A.reverse B.reverse) (min A.length B.length - lcpLen A B))).drop
      (lcpLen A B) := by
    have := congrArg (fun p => p.1) h
    simpa [reduce_match] using this.symm
  have hb : b' = (B.take (B.length -
      min (lcpLen A.reverse B.reverse) (min A.length B.length - lcpLen A B))).drop
      (lcpLen A B) := by
    have := congrArg (fun p => p.2.1) h
    simpa [reduce_match] using this.symm
  set i0 := lcpLen A B with hi0
  set S0 := lcpLen A.reverse B.reverse with hS0
  set j0 := min S0 (min A.length B.length - i0) with hj0
  have hj0A : j0 ≤ A.length - j0 + j0 := by omega
  have hlena : a'.length = A.length - j0 - i0 := by
    rw [ha]; exact slice_len A i0 _ (Nat.sub_le _ _)
  have hlenb : b'.length = B.length - j0 - i0 := by
    rw [hb]; exact slice_len B i0 _ (Nat.sub_le _ _)
  have key : lcpLen a' b' = 0 ∧
      min (lcpLen a'.reverse b'.reverse) (min a'.length b'.length) = 0 := by
    by_cases hA : a' = []
    · refine ⟨by rw [hA]; exact lcpLen_nil_left _, ?_⟩
      have : a'.length = 0 := by rw [hA]; rfl
      have : min a'.length b'.length = 0 := by omega
      rw [this, Nat.min_zero]
    · by_cases hB : b' = []
      · refine ⟨by rw [hB]; exact lcpLen_nil_right _, ?_⟩
        have : b'.length = 0 := by rw [hB]; rfl
        have : min a'.length b'.length = 0 := by omega
        rw [this, Nat.min_zero]
      · -- both outputs nonempty
        have hlA : a'.length ≠ 0 := fun hz => hA (List.length_eq_zero.mp hz)
        have hlB : b'.length ≠ 0 := fun hz => hB (List.length_eq_zero.mp hz)
        have hia : i0 + j0 < A.length := by omega
        have hib : i0 + j0 < B.length := by omega
        -- the prefix scan stopped at a genuine mismatch
        have hhead : a'.head? ≠ b'.head? := by
          rw [ha, hb, slice_head A i0 _ (by omega), slice_head B i0 _ (by omega)]
          exact lcpLen_get_ne A B (by omega) (by omega)
        -- the suffix scan cannot have been stopped by the bound
        have hScase : j0 = S0 := by
          rcases Nat.le_total S0 (min A.length B.length - i0) with hle | hle
          · rw [hj0, min_eq_left hle]
          · have : j0 = min A.length B.length - i0 := by rw [hj0, min_eq_right hle]
            omega
        have hlast : a'.getLast? ≠ b'.getLast? := by
          rw [ha, hb, slice_last A i0 _ (by omega) (Nat.sub_le _ _),
            slice_last B i0 _ (by omega) (Nat.sub_le _ _)]
          have hrev := lcpLen_get_ne A.reverse B.reverse
            (by rw [List.length_reverse]; omega) (by rw [List.length_reverse]; omega)
          rw [List.getElem?_reverse (by omega), List.getElem?_reverse (by omega)] at hrev
          have e1 : A.length - 1 - S0 = A.length - j0 - 1 := by omega
          have e2 : B.length - 1 - S0 = B.length - j0 - 1 := by omega
          rw [e1, e2] at hrev
          exact hrev
        refine ⟨lcpLen_eq_zero_of_head_ne _ _ hhead, ?_⟩
        have : lcpLen a'.reverse b'.reverse = 0 := by
          refine lcpLen_eq_zero_of_head_ne _ _ ?_
          rw [List.head?_reverse, List.head?_reverse]
          exact hlast
        rw [this, Nat.zero_min]
  simp only [reduce_match, key.1, key.2, Nat.sub_zero, List.take_length,
    List.drop_zero, Prod.mk.injEq, and_self]

/-- C2: trimming with `reduce_match` before the distance computation never
changes the result: both engines applied to the trimmed pair return exactly
what they return on the original pair (each engine starts by reducing, and
reducing is idempotent). -/
theorem reduce_match_preserves_distances (A B : List Char) :
    levenshtein_distance (reduce_match A B).1 (reduce_match A B).2.1 =
      levenshtein_distance A B ∧
    damerau_levenshtein_distance (reduce_match A B).1 (reduce_match A B).2.1 =
      damerau_levenshtein_distance A B := by
  have h := reduce_match_idem A B
  constructor
  · show levPost (reduce_match (reduce_match A B).1 (reduce_match A B).2.1).1
        (reduce_match (reduce_match A B).1 (reduce_match A B).2.1).2.1 = _
    rw [h]
    rfl
  · show damPost (reduce_match (reduce_match A B).1 (reduce_match A B).2.1).1
        (reduce_match (reduce_match A B).1 (reduce_match A B).2.1).2.1 = _
    rw [h]
    rfl


/-! ### Damerau-Levenshtein never exceeds Levenshtein (C6) -/

theorem levRow_nil (c1 : Char) (cur : Nat) (p : List Nat) : levRow c1 [] cur p = [] := by
  cases p with
  | nil => rfl
  | cons p0 pt => cases pt <;> rfl

theorem damRow_nil (c1 : Char) (p1c : Option Char) (pc2 : Option Char) (q cur : Nat)
    (pd p2 : List Nat) : damRow c1 p1c [] pc2 q cur pd p2 = [] := by
  cases pd with
  | nil => cases p2 <;> rfl
  | cons p0 pt => cases pt <;> cases p2 <;> rfl

theorem min4_le_min3 (a b c d a' b' c' : Nat) (ha : a ≤ a') (hb : b ≤ b') (hc : c ≤ c') :
    min4 a b c d ≤ min3 a' b' c' := by
  simp only [min3, min4]
  omega

theorem damRow_le_levRow (c1 : Char) (p1c : Option Char) (s2 : List Char) :
    ∀ (pc2 : Option Char) (q : Nat) (pd pl p2 : List Nat) (curd curl : Nat),
      List.Forall₂ (· ≤ ·) pd pl → curd ≤ curl →
      pd.length = s2.length + 1 → p2.length = s2.length + 1 →
      List.Forall₂ (· ≤ ·) (damRow c1 p1c s2 pc2 q curd pd p2) (levRow c1 s2 curl pl) := by
  induction s2 with
  | nil =>
    intro pc2 q pd pl p2 curd curl _ _ _ _
    rw [damRow_nil, levRow_nil]
    exact List.Forall₂.nil
  | cons c2 t ih =>
    intro pc2 q pd pl p2 curd curl hf hc hpd hp2
    cases pd with
    | nil => simp at hpd
    | cons p0 pd' =>
      cases pd' with
      | nil => simp only [List.length_cons, List.length_nil] at hpd; omega
      | cons p1 pt =>
        cases p2 with
        | nil => simp only [List.length_nil, List.length_cons] at hp2; omega
        | cons q0 qt =>
          have hlen := hf.length_eq
          cases pl with
          | nil => simp at hlen
          | cons l0 pl' =>
            cases pl' with
            | nil => simp only [List.length_cons, List.length_nil] at hlen; omega
            | cons l1 lt =>
              rw [List.forall₂_cons, List.forall₂_cons] at hf
              obtain ⟨h0, h1, hrest⟩ := hf
              simp only [damRow, levRow]
              have hcell : ∀ tr : Nat,
                  min4 (p0 + (if c1 = c2 then 0 else 1)) (curd + 1) (p1 + 1) tr ≤
                    min3 (l0 + (if c1 = c2 then 0 else 1)) (curl + 1) (l1 + 1) :=
                fun tr => min4_le_min3 _ _ _ _ _ _ _ (by omega) (by omega) (by omega)
              refine List.Forall₂.cons (hcell _) ?_
              refine ih (some c2) q0 (p1 :: pt) (l1 :: lt) qt _ _
                (List.forall₂_cons.mpr ⟨h1, hrest⟩) (hcell _) ?_ ?_
              · simp only [List.length_cons] at hpd ⊢
                omega
              · simp only [List.length_cons] at hp2 ⊢
                omega

theorem damRow_length (c1 : Char) (p1c : Option Char) (s2 : List Char) :
    ∀ (pc2 : Option Char) (q : Nat) (pd p2 : List Nat) (cur : Nat),
      pd.length = s2.length + 1 → p2.length = s2.length + 1 →
      (damRow c1 p1c s2 pc2 q cur pd p2).length = s2.length := by
  induction s2 with
  | nil => intro pc2 q pd p2 cur _ _; rw [damRow_nil]; rfl
  | cons c2 t ih =>
    intro pc2 q pd p2 cur hpd hp2
    cases pd with
    | nil => simp at hpd
    | cons p0 pd' =>
      cases pd' with
      | nil => simp only [List.length_cons, List.length_nil] at hpd; omega
      | cons p1 pt =>
        cases p2 with
        | nil => simp only [List.length_nil, List.length_cons] at hp2; omega
        | cons q0 qt =>
          simp only [damRow, List.length_cons]
          rw [ih (some c2) q0 (p1 :: pt) qt _ ?_ ?_]
          · simp only [List.length_cons] at hpd ⊢
            omega
          · simp only [List.length_cons] at hp2 ⊢
            omega

theorem damRows_le_levRows (s2 : List Char) (s1 : List Char) :
    ∀ (p1c : Option Char) (r : Nat) (curd curl prev : List Nat),
      List.Forall₂ (· ≤ ·) curd curl →
      curd.length = s2.length + 1 → prev.length = s2.length + 1 →
      List.Forall₂ (· ≤ ·) (damRows s2 s1 p1c r curd prev) (levRows s2 s1 r curl) := by
  induction s1 with
  | nil => intro p1c r curd curl prev hf _ _; exact hf
  | cons c1 t ih =>
    intro p1c r curd curl prev hf hcd hpr
    simp only [damRows, levRows]
    refine ih (some c1) (r + 1) _ _ curd
      (List.Forall₂.cons (le_refl r) (damRow_le_levRow c1 p1c s2 none 0 curd curl prev r r hf (le_refl r) hcd hpr))
      ?_ hcd
    simp only [List.length_cons]
    rw [damRow_length c1 p1c s2 none 0 curd prev r hcd hpr]

theorem forall2_getLastD_le (l1 l2 : List Nat) (hf : List.Forall₂ (· ≤ ·) l1 l2) :
    ∀ d1 d2 : Nat, d1 ≤ d2 → l1.getLastD d1 ≤ l2.getLastD d2 := by
  induction hf with
  | nil => intro d1 d2 h; exact h
  | @cons a b t1 t2 hab _ ih =>
    intro d1 d2 _
    rw [List.getLastD_cons, List.getLastD_cons]
    exact ih a b hab

theorem damRows_nil_s2 (t : List Char) :
    ∀ (p1c : Option Char) (r : Nat) (cur prev : List Nat), t ≠ [] →
      damRows [] t p1c r cur prev = [r + t.length - 1] := by
  induction t with
  | nil => intro _ _ _ _ h; exact absurd rfl h
  | cons c1 t ih =>
    intro p1c r cur prev _
    simp only [damRows, damRow_nil]
    by_cases ht : t = []
    · subst ht; simp [damRows]
    · rw [ih (some c1) (r + 1) _ _ ht]
      simp only [List.length_cons]
      congr 1
      omega

theorem range_getLastD (n : Nat) : (List.range (n + 1)).getLastD 0 = n := by
  rw [List.range_succ]
  simp [List.getLastD_eq_getLast?]

/-- The post-reduction stage of the Damerau-Levenshtein engine never exceeds
that of the Levenshtein engine on the same pair. -/
theorem damPost_le_levPost (x y : List Char) : damPost x y ≤ levPost x y := by
  have post : ∀ t1 t2 : List Char,
      (if t1.isEmpty then t2.length
       else (damRows t2 t1 none 1 (List.range (t2.length + 1))
         (List.replicate (t2.length + 1) 0)).getLastD 0) ≤
      (if t2.isEmpty then t1.length
       else (levRows t2 t1 1 (List.range (t2.length + 1))).getLastD 0) := by
    intro t1 t2
    by_cases h1 : t1.isEmpty
    · have ht1 : t1 = [] := List.isEmpty_iff.mp h1
      subst ht1
      by_cases h2 : t2.isEmpty
      · have ht2 : t2 = [] := List.isEmpty_iff.mp h2
        subst ht2
        simp
      · have hle : t2.length ≤ (levRows t2 [] 1 (List.range (t2.length + 1))).getLastD 0 := by
          show t2.length ≤ (List.range (t2.length + 1)).getLastD 0
          rw [range_getLastD]
        simpa [h2] using hle
    · have ht1 : t1 ≠ [] := fun he => h1 (by rw [he]; rfl)
      by_cases h2 : t2.isEmpty
      · have ht2 : t2 = [] := List.isEmpty_iff.mp h2
        subst ht2
        rw [if_neg h1, if_pos h2, damRows_nil_s2 t1 none 1 _ _ ht1]
        simp only [List.getLastD_eq_getLast?, List.getLast?_singleton, Option.getD_some,
          List.length_nil]
        omega
      · rw [if_neg h1, if_neg h2]
        refine forall2_getLastD_le _ _ ?_ 0 0 (le_refl 0)
        refine damRows_le_levRows t2 t1 none 1 _ _ _ ?_ (by simp) (by simp)
        exact List.forall₂_same.mpr (fun a _ => le_refl a)
  by_cases h : x.length < y.length
  · simpa only [damPost, levPost, if_pos h] using post y x
  · simpa only [damPost, levPost, if_neg h] using post x y

/-- C6: for every pair of sequences,
`damerau_levenshtein_distance(A,B) ≤ levenshtein_distance(A,B)` (adding the
transposition candidate can only lower each DP cell). -/
theorem damerau_le_levenshtein (A B : List Char) :
    damerau_levenshtein_distance A B ≤ levenshtein_distance A B :=
  damPost_le_levPost (reduce_match A B).1 (reduce_match A B).2.1

/-! ### Scripts are maximal-run encoded (C9) -/

theorem opStr_eq_some {c o : Char} (h : opStr c = some o) : o = c := by
  unfold opStr at h
  split_ifs at h with h1 h2 h3 h4 h5 h6 h7 h8 <;> simp_all <;> exact h.symm

theorem opStr_ne_null {c : Char} (h : (opStr c).isSome) : c ≠ '\x00' := by
  intro he
  subst he
  simp [opStr] at h

theorem rleGo_good (l : List Char) :
    ∀ (op : Char) (count : Nat) (acc out : List CigarOp),
      rleGo l op count acc = some out →
      (∀ r ∈ acc, 0 < r.count ∧ opStr r.op = some r.op) →
      List.Chain' (fun a b => a.op ≠ b.op) acc →
      (count ≠ 0 → ∀ z, acc.getLast? = some z → z.op ≠ op) →
      (count = 0 → acc = []) →
      (∀ r ∈ out, 0 < r.count ∧ opStr r.op = some r.op) ∧
        List.Chain' (fun a b => a.op ≠ b.op) out := by
  induction l with
  | nil =>
    intro op count acc out h hruns hchain hlast hz
    by_cases hc : count = 0
    · subst hc
      simp only [rleGo, ne_eq, not_true_eq_false, if_neg, reduceIte] at h
      cases h
      exact ⟨hruns, hchain⟩
    · simp only [rleGo, if_pos hc, Option.map_eq_some'] at h
      obtain ⟨o, ho, hout⟩ := h
      have hoc := opStr_eq_some ho
      subst hoc
      subst hout
      constructor
      · intro r hr
        rcases List.mem_append.mp hr with hr | hr
        · exact hruns r hr
        · simp only [List.mem_singleton] at hr
          subst hr
          exact ⟨Nat.pos_of_ne_zero hc, ho⟩
      · rw [List.chain'_append]
        refine ⟨hchain, List.chain'_singleton _, ?_⟩
        intro x hx y hy
        simp only [List.head?_cons, Option.mem_def, Option.some.injEq] at hy
        subst hy
        exact hlast hc x hx
  | cons c rest ih =>
    intro op count acc out h hruns hchain hlast hz
    by_cases hco : c = op
    · rw [rleGo, if_pos hco] at h
      refine ih op (count + 1) acc out h hruns hchain ?_ (by omega)
      intro _ z hzl
      by_cases hc : count = 0
      · rw [hz hc] at hzl
        simp at hzl
      · exact hlast hc z hzl
    · by_cases hc : count = 0
      · rw [rleGo, if_neg hco, if_neg (by omega)] at h
        refine ih c 1 acc out h hruns hchain ?_ (by omega)
        intro _ z hzl
        rw [hz hc] at hzl
        simp at hzl
      · rw [rleGo, if_neg hco, if_pos hc] at h
        rw [Option.bind_eq_some] at h
        obtain ⟨o, ho, hrec⟩ := h
        have hoc := opStr_eq_some ho
        subst hoc
        refine ih c 1 (acc ++ [⟨o, count⟩]) out hrec ?_ ?_ ?_ (by omega)
        · intro r hr
          rcases List.mem_append.mp hr with hr | hr
          · exact hruns r hr
          · simp only [List.mem_singleton] at hr
            subst hr
            exact ⟨Nat.pos_of_ne_zero hc, ho⟩
        · rw [List.chain'_append]
          refine ⟨hchain, List.chain'_singleton _, ?_⟩
          intro x hx y hy
          simp only [List.head?_cons, Option.mem_def, Option.some.injEq] at hy
          subst hy
          exact hlast hc x hx
        · intro _ z hzl
          rw [List.getLast?_concat] at hzl
          cases hzl
          exact fun he => hco he.symm

theorem rleGo_sum (ms mms g : Int) (l : List Char) :
    ∀ (op : Char) (count : Nat) (acc out : List CigarOp),
      rleGo l op count acc = some out →
      cigarScore ms mms g out =
        cigarScore ms mms g acc + charScore ms mms g op * (count : Int) +
          (l.map (charScore ms mms g)).sum := by
  induction l with
  | nil =>
    intro op count acc out h
    by_cases hc : count = 0
    · subst hc
      simp only [rleGo, ne_eq, not_true_eq_false, if_neg, reduceIte] at h
      cases h
      simp
    · simp only [rleGo, if_pos hc, Option.map_eq_some'] at h
      obtain ⟨o, ho, hout⟩ := h
      have hoc := opStr_eq_some ho
      subst hoc
      subst hout
      simp [cigarScore]
  | cons c rest ih =>
    intro op count acc out h
    by_cases hco : c = op
    · rw [rleGo, if_pos hco] at h
      have heq := ih op (count + 1) acc out h
      subst hco
      rw [heq]
      simp only [List.map_cons, List.sum_cons]
      push_cast
      ring
    · by_cases hc : count = 0
      · rw [rleGo, if_neg hco, if_neg (by omega)] at h
        have heq := ih c 1 acc out h
        rw [heq, hc]
        simp only [List.map_cons, List.sum_cons]
        push_cast
        ring
      · rw [rleGo, if_neg hco, if_pos hc] at h
        rw [Option.bind_eq_some] at h
        obtain ⟨o, ho, hrec⟩ := h
        have hoc := opStr_eq_some ho
        subst hoc
        have heq := ih c 1 (acc ++ [⟨o, count⟩]) out hrec
        rw [heq]
        simp only [cigarScore, List.map_append, List.sum_append, List.map_cons, List.sum_cons,
          List.map_nil, List.sum_nil]
        push_cast
        ring

theorem rleGo_replicate (c : Char) (l : List Char) :
    ∀ (k count : Nat) (acc : List CigarOp),
      rleGo (List.replicate k c ++ l) c count acc = rleGo l c (count + k) acc := by
  intro k
  induction k with
  | zero => intro count acc; rfl
  | succ k ih =>
    intro count acc
    rw [List.replicate_succ, List.cons_append, rleGo, if_pos rfl, ih (count + 1)]
    congr 1
    omega

theorem rleGo_expand (cig : List CigarOp) :
    ∀ (c : Char) (count : Nat) (acc : List CigarOp),
      count ≠ 0 → opStr c = some c →
      (∀ r ∈ cig, 0 < r.count ∧ opStr r.op = some r.op) →
      List.Chain' (fun a b => a.op ≠ b.op) (⟨c, count⟩ :: cig) →
      rleGo (expandCigar cig) c count acc = some (acc ++ ⟨c, count⟩ :: cig) := by
  induction cig with
  | nil =>
    intro c count acc hc hvc _ _
    simp [expandCigar, rleGo, hc, hvc]
  | cons r rest ih =>
    intro c count acc hc hvc hruns hchain
    obtain ⟨hrpos, hrval⟩ := hruns r (List.mem_cons_self r rest)
    have hne : c ≠ r.op := (List.chain'_cons.mp hchain).1
    obtain ⟨k, hk⟩ : ∃ k, r.count = k + 1 := ⟨r.count - 1, by omega⟩
    have hexp : expandCigar (r :: rest) =
        r.op :: (List.replicate k r.op ++ expandCigar rest) := by
      simp only [expandCigar, List.map_cons, List.flatten_cons, hk, List.replicate_succ,
        List.cons_append]
    have hr : (⟨r.op, 1 + k⟩ : CigarOp) = r := by
      have h1 : 1 + k = r.count := by omega
      rw [h1]
    have hchain2 : List.Chain' (fun a b => a.op ≠ b.op) ((⟨r.op, 1 + k⟩ : CigarOp) :: rest) := by
      rw [hr]
      exact (List.chain'_cons.mp hchain).2
    have hih := ih r.op (1 + k) (acc ++ [⟨c, count⟩]) (by omega) hrval
      (fun x hx => hruns x (List.mem_cons_of_mem _ hx)) hchain2
    rw [hexp, rleGo, if_neg (fun he => hne he.symm), if_pos hc, hvc, Option.some_bind,
      rleGo_replicate, hih, hr, List.append_assoc]
    rfl

theorem reEncode_roundtrip (cig : List CigarOp)
    (hruns : ∀ r ∈ cig, 0 < r.count ∧ opStr r.op = some r.op)
    (hchain : List.Chain' (fun a b => a.op ≠ b.op) cig) :
    reEncode (expandCigar cig) = some cig := by
  cases cig with
  | nil => rfl
  | cons r rest =>
    obtain ⟨hrpos, hrval⟩ := hruns r (List.mem_cons_self r rest)
    have hne : r.op ≠ '\x00' := opStr_ne_null (by rw [hrval]; rfl)
    obtain ⟨k, hk⟩ : ∃ k, r.count = k + 1 := ⟨r.count - 1, by omega⟩
    have hexp : expandCigar (r :: rest) =
        r.op :: (List.replicate k r.op ++ expandCigar rest) := by
      simp only [expandCigar, List.map_cons, List.flatten_cons, hk, List.replicate_succ,
        List.cons_append]
    have hr : (⟨r.op, 1 + k⟩ : CigarOp) = r := by
      have h1 : 1 + k = r.count := by omega
      rw [h1]
    have hchain2 : List.Chain' (fun a b => a.op ≠ b.op) ((⟨r.op, 1 + k⟩ : CigarOp) :: rest) := by
      rw [hr]
      exact hchain
    have hih := rleGo_expand rest r.op (1 + k) [] (by omega) hrval
      (fun x hx => hruns x (List.mem_cons_of_mem _ hx)) hchain2
    rw [reEncode, hexp, rleGo, if_neg hne, if_neg (by omega), rleGo_replicate, hih, hr]
    rfl

/-- Any script produced by `_roll_cigar` is maximal-run encoded and survives
the expand/re-encode round trip. -/
theorem rollCigar_good (n m i0 j0 : Nat) (edits : List Char) (cig : List CigarOp)
    (h : rollCigar n m i0 j0 edits = some cig) :
    goodCigar cig ∧ reEncode (expandCigar cig) = some cig := by
  rw [rollCigar, Option.bind_eq_some] at h
  obtain ⟨s, _, henc⟩ := h
  have hg := rleGo_good s.reverse '\x00' 0 [] cig henc (by simp) List.chain'_nil
    (by omega) (fun _ => rfl)
  refine ⟨⟨hg.2, fun r hr => (hg.1 r hr).1⟩, ?_⟩
  exact reEncode_roundtrip cig hg.1 hg.2

/-- Any script returned by `smith_waterman` is maximal-run encoded and
survives the round trip. -/
theorem sw_script_good (s1 s2 : List Char) (ms mms g : Int) (sc : Int)
    (cig : List CigarOp) (h : smith_waterman s1 s2 ms mms g = some (sc, cig)) :
    goodCigar cig ∧ reEncode (expandCigar cig) = some cig := by
  by_cases hnm : s1.length = 0 ∨ s2.length = 0
  · simp only [smith_waterman, if_pos hnm] at h
    cases h
  · simp only [smith_waterman, if_neg hnm, Option.map_eq_some'] at h
    obtain ⟨c, hc, heq⟩ := h
    have : c = cig := congrArg Prod.snd heq
    subst this
    exact rollCigar_good _ _ _ _ _ _ hc

/-- C9: every script returned by `smith_waterman` or `smith_waterman_gotoh`
is maximal-run encoded (no two adjacent runs share an op, every count is
positive) and expanding it into a flat op sequence and re-encoding it with
the same run-merging logic reproduces the identical script. -/
theorem scripts_maximal_run (s1 s2 : List Char) (ms mms g go ge : Int) :
    (∀ sc cig, smith_waterman s1 s2 ms mms g = some (sc, cig) →
      goodCigar cig ∧ reEncode (expandCigar cig) = some cig) ∧
    (∀ sc cig, smith_waterman_gotoh s1 s2 ms mms go ge = some (sc, cig) →
      goodCigar cig ∧ reEncode (expandCigar cig) = some cig) := by
  constructor
  · intro sc cig h
    exact sw_script_good s1 s2 ms mms g sc cig h
  · intro sc cig h
    by_cases hge : go = ge
    · rw [smith_waterman_gotoh, if_pos hge] at h
      exact sw_script_good s1 s2 ms mms go sc cig h
    · by_cases hnm : s1.length = 0 ∨ s2.length = 0
      · simp only [smith_waterman_gotoh, if_neg hge, if_pos hnm] at h
        cases h
      · simp only [smith_waterman_gotoh, if_neg hge, if_neg hnm,
          Option.map_eq_some'] at h
        obtain ⟨c, hc, heq⟩ := h
        have : c = cig := congrArg Prod.snd heq
        subst this
        exact rollCigar_good _ _ _ _ _ _ hc

/-- Witness for C9 at the spec's first worked example, exercising both the
plain engine and the affine engine (with its default distinct gap scores). -/
theorem scripts_maximal_run_witness :
    (goodCigar [⟨'N', 1⟩, ⟨'=', 1⟩, ⟨'N', 1⟩] ∧
      reEncode (expandCigar [⟨'N', 1⟩, ⟨'=', 1⟩, ⟨'N', 1⟩]) =
        some [⟨'N', 1⟩, ⟨'=', 1⟩, ⟨'N', 1⟩]) ∧
    (goodCigar [⟨'N', 1⟩, ⟨'=', 1⟩, ⟨'N', 1⟩] ∧
      reEncode (expandCigar [⟨'N', 1⟩, ⟨'=', 1⟩, ⟨'N', 1⟩]) =
        some [⟨'N', 1⟩, ⟨'=', 1⟩, ⟨'N', 1⟩]) := by
  have h := scripts_maximal_run "b".toList "abc".toList 1 (-1) (-1) (-2) (-1)
  exact ⟨h.1 1 _ (by decide), h.2 1 _ (by decide)⟩

/-! ### Telescoping the backward walk against the cost matrix (C4, amended) -/

theorem replicate_getD_zero (n k : Nat) : (List.replicate n (0 : Int)).getD k 0 = 0 := by
  rw [List.getD_eq_getElem?_getD, List.getElem?_replicate]
  split <;> rfl

theorem swFill_rows_shape (ms mms g : Int) (s2 : List Char) :
    ∀ (s1 : List Char) (prev : List Int) (r : List Int),
      r ∈ (swFill ms mms g s2 s1 prev).1 → ∃ t, r = 0 :: t := by
  intro s1
  induction s1 with
  | nil => intro prev r hr; simp [swFill] at hr
  | cons c1 t ih =>
    intro prev r hr
    simp only [swFill, List.mem_cons] at hr
    rcases hr with hr | hr
    · exact ⟨_, hr⟩
    · exact ih _ r hr

theorem sw_rows_top (m : Nat) (rows : List (List Int)) (k : Nat) :
    ((List.replicate (m + 1) (0 : Int) :: rows).getD 0 []).getD k 0 = 0 := by
  rw [List.getD_cons_zero]
  exact replicate_getD_zero _ _

theorem sw_rows_left (ms mms g : Int) (s2 s1 : List Char) (m : Nat) (prev : List Int)
    (a : Nat) :
    ((List.replicate (m + 1) (0 : Int) :: (swFill ms mms g s2 s1 prev).1).getD a []).getD 0 0
      = 0 := by
  cases a with
  | zero => rw [List.getD_cons_zero]; exact replicate_getD_zero _ _
  | succ a =>
    rw [List.getD_cons_succ]
    rcases hg : (swFill ms mms g s2 s1 prev).1[a]? with _ | r
    · rw [List.getD_eq_getElem?_getD ((swFill ms mms g s2 s1 prev).1) a, hg]
      rfl
    · rw [List.getD_eq_getElem?_getD ((swFill ms mms g s2 s1 prev).1) a, hg]
      obtain ⟨t, ht⟩ := swFill_rows_shape ms mms g s2 s1 prev r (List.getElem?_mem hg)
      subst ht
      rfl

theorem swWalk_telescope (m' : Nat) (edits : List Char) (rows : List (List Int))
    (ms mms g : Int)
    (H0 : ∀ k : Nat, (rows.getD 0 []).getD k 0 = 0)
    (H1 : ∀ a : Nat, (rows.getD a []).getD 0 0 = 0) :
    ∀ (fuel : Nat) (i j : Int) (w : List Char),
      swWalkOkF m' edits rows ms mms g fuel i j = true →
      swWalkF m' edits fuel i j = some w →
      (w.map (charScore ms mms g)).sum = cellAt rows (i + 1) (j + 1) := by
  have hbase : ∀ (i j : Int), i < 0 ∨ j < 0 → cellAt rows (i + 1) (j + 1) = 0 := by
    intro i j hij
    rcases hij with hij | hij
    · have : (i + 1).toNat = 0 := by omega
      rw [cellAt, this]
      exact H0 _
    · have : (j + 1).toNat = 0 := by omega
      rw [cellAt, this]
      exact H1 _
  have hskips : ∀ (i j : Int),
      ((List.replicate (j + 1).toNat 'N' ++ List.replicate (i + 1).toNat 'S').map
        (charScore ms mms g)).sum = 0 := by
    intro i j
    simp [charScore, List.map_replicate, List.sum_replicate]
  intro fuel
  induction fuel with
  | zero =>
    intro i j w hok hw
    by_cases hij : i < 0 ∨ j < 0
    · rw [swWalkF, if_pos hij] at hw
      cases hw
      rw [hskips, hbase i j hij]
    · rw [swWalkOkF, if_neg hij] at hok
      cases hok
  | succ fuel ih =>
    intro i j w hok hw
    by_cases hij : i < 0 ∨ j < 0
    · rw [swWalkF, if_pos hij] at hw
      cases hw
      rw [hskips, hbase i j hij]
    · rw [swWalkF, if_neg hij] at hw
      rw [swWalkOkF, if_neg hij] at hok
      set op := edits.getD (m' * i.toNat + j.toNat) '?' with hop
      by_cases h1 : op = '='
      · rw [if_pos (Or.inr (Or.inl h1))] at hw
        rw [if_pos h1, Bool.and_eq_true, beq_iff_eq] at hok
        rw [Option.map_eq_some'] at hw
        obtain ⟨w', hw', hwc⟩ := hw
        subst hwc
        have hsum := ih (i - 1) (j - 1) w' hok.2 hw'
        have hco : i - 1 + 1 = i := by ring
        have hco2 : j - 1 + 1 = j := by ring
        rw [hco, hco2] at hsum
        simp only [List.map_cons, List.sum_cons, hsum, h1]
        rw [hok.1, show charScore ms mms g '=' = ms from rfl]
        ring
      · by_cases h2 : op = 'X'
        · rw [if_pos (Or.inr (Or.inr h2))] at hw
          rw [if_neg h1, if_pos h2, Bool.and_eq_true, beq_iff_eq] at hok
          rw [Option.map_eq_some'] at hw
          obtain ⟨w', hw', hwc⟩ := hw
          subst hwc
          have hsum := ih (i - 1) (j - 1) w' hok.2 hw'
          have hco : i - 1 + 1 = i := by ring
          have hco2 : j - 1 + 1 = j := by ring
          rw [hco, hco2] at hsum
          simp only [List.map_cons, List.sum_cons, hsum, h2]
          rw [hok.1, show charScore ms mms g 'X' = mms from rfl]
          ring
        · by_cases h3 : op = 'M'
          · rw [if_neg h1, if_neg h2, if_neg (by rw [h3]; decide),
              if_neg (by rw [h3]; decide)] at hok
            cases hok
          · by_cases h4 : op = 'D'
            · rw [if_neg (by simp [h1, h2, h3]), if_pos h4] at hw
              rw [if_neg h1, if_neg h2, if_neg (by rw [h4]; decide), if_pos h4,
                Bool.and_eq_true, beq_iff_eq] at hok
              rw [Option.map_eq_some'] at hw
              obtain ⟨w', hw', hwc⟩ := hw
              subst hwc
              have hsum := ih (i - 1) j w' hok.2 hw'
              have hco : i - 1 + 1 = i := by ring
              rw [hco] at hsum
              simp only [List.map_cons, List.sum_cons, hsum, h4]
              rw [hok.1, show charScore ms mms g 'D' = g from rfl]
              ring
            · by_cases h5 : op = 'I'
              · rw [if_neg (by simp [h1, h2, h3]), if_neg h4, if_pos h5] at hw
                rw [if_neg h1, if_neg h2, if_pos h5, Bool.and_eq_true, beq_iff_eq] at hok
                rw [Option.map_eq_some'] at hw
                obtain ⟨w', hw', hwc⟩ := hw
                subst hwc
                have hsum := ih i (j - 1) w' hok.2 hw'
                have hco2 : j - 1 + 1 = j := by ring
                rw [hco2] at hsum
                simp only [List.map_cons, List.sum_cons, hsum, h5]
                rw [hok.1, show charScore ms mms g 'I' = g from rfl]
                ring
              · rw [if_neg h1, if_neg h2, if_neg h5, if_neg h4] at hok
                cases hok

/-- Telescoping the whole of `_roll_cigar`: when every step of the backward
walk is value-consistent, the per-op contribution sum of the returned script
equals the DP value at the walk's starting cell. -/
theorem rollCigar_telescope (n m mi mj : Nat) (edits : List Char) (rows : List (List Int))
    (ms mms g : Int) (cig : List CigarOp)
    (H0 : ∀ k : Nat, (rows.getD 0 []).getD k 0 = 0)
    (H1 : ∀ a : Nat, (rows.getD a []).getD 0 0 = 0)
    (hok : swWalkOk (mj + 1) edits rows ms mms g (mi : Int) (mj : Int) = true)
    (hc : rollCigar n m mi mj edits = some cig) :
    cigarScore ms mms g cig = cellAt rows ((mi : Int) + 1) ((mj : Int) + 1) := by
  rw [rollCigar, Option.bind_eq_some] at hc
  obtain ⟨st, hst, henc⟩ := hc
  rw [igarStream, Option.map_eq_some'] at hst
  obtain ⟨w, hwalk, hstw⟩ := hst
  subst hstw
  have hsum := rleGo_sum ms mms g _ '\x00' 0 [] cig henc
  rw [List.map_reverse, List.sum_reverse] at hsum
  simp only [List.map_append, List.sum_append] at hsum
  have hS : ((List.replicate (n - 1 - mi) 'S').map (charScore ms mms g)).sum = 0 := by
    simp [charScore, List.map_replicate, List.sum_replicate]
  have hN : ((List.replicate (m - 1 - mj) 'N').map (charScore ms mms g)).sum = 0 := by
    simp [charScore, List.map_replicate, List.sum_replicate]
  rw [swWalk] at hwalk
  rw [swWalkOk] at hok
  have htel := swWalk_telescope (mj + 1) edits rows ms mms g H0 H1
    (((mi : Int) + (mj : Int) + 2).toNat) (mi : Int) (mj : Int) w hok hwalk
  rw [hsum, hS, hN, htel]
  simp [cigarScore]

/-- Whenever the backward walk of `smith_waterman` is value-consistent (each
emitted op's score candidate equals the cell value it was emitted from), the
per-op contribution sum of the returned script equals the returned score. -/
theorem sw_score_of_consistent (s1 s2 : List Char) (ms mms g sc : Int)
    (cig : List CigarOp) (h : smith_waterman s1 s2 ms mms g = some (sc, cig))
    (hok : swConsistent s1 s2 ms mms g = true) :
    cigarScore ms mms g cig = sc := by
  by_cases hnm : s1.length = 0 ∨ s2.length = 0
  · simp only [smith_waterman, if_pos hnm] at h
    cases h
  · simp only [smith_waterman, if_neg hnm, Option.map_eq_some'] at h
    simp only [swConsistent, if_neg hnm] at hok
    obtain ⟨c, hc, heq⟩ := h
    set m := s2.length with hm
    set row0 : List Int := List.replicate (m + 1) 0 with hrow0
    set F := swFill ms mms g s2 s1 row0 with hF
    set b := scanMax F.2.2 0 (0, 0) with hb
    set mi := b.2 / m with hmi
    set mj := b.2 % m with hmj
    have H0 : ∀ k : Nat, ((row0 :: F.1).getD 0 []).getD k 0 = 0 := by
      intro k
      rw [hrow0]
      exact sw_rows_top m F.1 k
    have H1 : ∀ a : Nat, ((row0 :: F.1).getD a []).getD 0 0 = 0 := by
      intro a
      rw [hF, hrow0]
      exact sw_rows_left ms mms g s2 s1 m _ a
    have htel := rollCigar_telescope s1.length m mi mj F.2.1 (row0 :: F.1) ms mms g c
      H0 H1 hok hc
    have hcg : c = cig := congrArg Prod.snd heq
    have e1 : ((mi : Int) + 1).toNat = mi + 1 := by
      rw [show ((mi : Int) + 1) = ((mi + 1 : Nat) : Int) from by push_cast; ring]
      simp
    have e2 : ((mj : Int) + 1).toNat = mj + 1 := by
      rw [show ((mj : Int) + 1) = ((mj + 1 : Nat) : Int) from by push_cast; ring]
      simp
    rw [← hcg, htel, cellAt, e1, e2]
    exact congrArg Prod.fst heq

/-! ### The affine-gap accounting of `smith_waterman_gotoh` (C4, amended) -/

theorem affCharScore_match (ms mms go ge : Int) (b : Bool) :
    affCharScore ms mms go ge '=' b = ms := rfl

theorem affCharScore_mismatch (ms mms go ge : Int) (b : Bool) :
    affCharScore ms mms go ge 'X' b = mms := rfl

theorem affCharScore_ins (ms mms go ge : Int) (b : Bool) :
    affCharScore ms mms go ge 'I' b = if b then ge else go := rfl

theorem affCharScore_del (ms mms go ge : Int) (b : Bool) :
    affCharScore ms mms go ge 'D' b = if b then ge else go := rfl

theorem runScore_zero (ms mms go ge : Int) (c : Char) :
    runScore ms mms go ge c 0 = 0 := by
  simp [runScore]

theorem runScore_match (ms mms go ge : Int) (k : Nat) :
    runScore ms mms go ge '=' k = ms * (k : Int) := rfl

theorem runScore_mismatch (ms mms go ge : Int) (k : Nat) :
    runScore ms mms go ge 'X' k = mms * (k : Int) := rfl

theorem runScore_ins (ms mms go ge : Int) (k : Nat) :
    runScore ms mms go ge 'I' k =
      if k = 0 then 0 else go + ge * ((k - 1 : Nat) : Int) := rfl

theorem runScore_del (ms mms go ge : Int) (k : Nat) :
    runScore ms mms go ge 'D' k =
      if k = 0 then 0 else go + ge * ((k - 1 : Nat) : Int) := rfl

theorem runScore_other (ms mms go ge : Int) (c : Char) (k : Nat) (h1 : c ≠ '=')
    (h2 : c ≠ 'X') (h3 : ¬(c = 'I' ∨ c = 'D')) : runScore ms mms go ge c k = 0 := by
  simp [runScore, h1, h2, h3]

theorem affCharScore_other (ms mms go ge : Int) (c : Char) (b : Bool) (h1 : c ≠ '=')
    (h2 : c ≠ 'X') (h3 : ¬(c = 'I' ∨ c = 'D')) : affCharScore ms mms go ge c b = 0 := by
  simp [affCharScore, h1, h2, h3]

theorem runScore_succ (ms mms go ge : Int) (op : Char) (count : Nat) (hc : count ≠ 0) :
    runScore ms mms go ge op (count + 1) =
      runScore ms mms go ge op count + affCharScore ms mms go ge op true := by
  have hcast : ((count - 1 : Nat) : Int) = (count : Int) - 1 := by omega
  have hnz : ¬(count + 1 = 0) := Nat.succ_ne_zero count
  by_cases h1 : op = '='
  · subst h1
    rw [runScore_match, runScore_match, affCharScore_match]
    push_cast
    ring
  · by_cases h2 : op = 'X'
    · subst h2
      rw [runScore_mismatch, runScore_mismatch, affCharScore_mismatch]
      push_cast
      ring
    · by_cases h3 : op = 'I' ∨ op = 'D'
      · rcases h3 with h3 | h3 <;> subst h3
        · rw [runScore_ins, runScore_ins, affCharScore_ins, if_pos rfl, if_neg hnz,
            if_neg hc, Nat.add_sub_cancel, hcast]
          ring
        · rw [runScore_del, runScore_del, affCharScore_del, if_pos rfl, if_neg hnz,
            if_neg hc, Nat.add_sub_cancel, hcast]
          ring
      · rw [runScore_other ms mms go ge op _ h1 h2 h3,
          runScore_other ms mms go ge op _ h1 h2 h3,
          affCharScore_other ms mms go ge op _ h1 h2 h3]
        ring

theorem runScore_one (ms mms go ge : Int) (c : Char) :
    runScore ms mms go ge c 1 = affCharScore ms mms go ge c false := by
  by_cases h1 : c = '='
  · subst h1
    rw [runScore_match, affCharScore_match]
    push_cast
    ring
  · by_cases h2 : c = 'X'
    · subst h2
      rw [runScore_mismatch, affCharScore_mismatch]
      push_cast
      ring
    · by_cases h3 : c = 'I' ∨ c = 'D'
      · rcases h3 with h3 | h3 <;> subst h3
        · rw [runScore_ins, affCharScore_ins, if_neg (by omega : ¬(1 = 0))]
          simp
        · rw [runScore_del, affCharScore_del, if_neg (by omega : ¬(1 = 0))]
          simp
      · rw [runScore_other ms mms go ge c _ h1 h2 h3,
          affCharScore_other ms mms go ge c _ h1 h2 h3]

theorem runScore_gap_eq (ms mms g : Int) (c : Char) (k : Nat) :
    runScore ms mms g g c k = charScore ms mms g c * (k : Int) := by
  by_cases h1 : c = '='
  · subst h1
    rw [runScore_match]
    rfl
  · by_cases h2 : c = 'X'
    · subst h2
      rw [runScore_mismatch]
      rfl
    · by_cases h3 : c = 'I' ∨ c = 'D'
      · have hch : charScore ms mms g c = g := by
          simp [charScore, h1, h2, h3]
        rcases h3 with h3 | h3 <;> subst h3 <;>
          [rw [runScore_ins, hch]; rw [runScore_del, hch]] <;>
          · cases k with
            | zero => simp
            | succ k =>
              have hcast : ((k + 1 - 1 : Nat) : Int) = (k : Int) := by omega
              rw [if_neg (Nat.succ_ne_zero k), hcast]
              push_cast
              ring
      · rw [runScore_other ms mms g g c _ h1 h2 h3]
        have hch : charScore ms mms g c = 0 := by
          simp [charScore, h1, h2, h3]
        rw [hch]
        ring

/-- With equal gap-open and gap-extend costs the affine run accounting
degenerates to the linear per-symbol accounting. -/
theorem affineCigarScore_gap_eq (ms mms g : Int) (cig : List CigarOp) :
    affineCigarScore ms mms g g cig = cigarScore ms mms g cig := by
  induction cig with
  | nil => rfl
  | cons r rest ih =>
    simp only [affineCigarScore, cigarScore, List.map_cons, List.sum_cons] at ih ⊢
    rw [ih, runScore_gap_eq]

/-- The run-length encoder preserves the affine score: the encoded runs
score exactly like the flat forward sequence with its pending character. -/
theorem rleGo_affine_sum (ms mms go ge : Int) (l : List Char) :
    ∀ (op : Char) (count : Nat) (acc out : List CigarOp),
      rleGo l op count acc = some out →
      (count = 0 → ∀ c ∈ l, c ≠ op) →
      affineCigarScore ms mms go ge out =
        affineCigarScore ms mms go ge acc + runScore ms mms go ge op count +
          flatFwd ms mms go ge l op := by
  induction l with
  | nil =>
    intro op count acc out h _
    by_cases hc : count = 0
    · subst hc
      simp only [rleGo, ne_eq, not_true_eq_false, if_neg, reduceIte] at h
      cases h
      simp [flatFwd, runScore_zero]
    · simp only [rleGo, if_pos hc, Option.map_eq_some'] at h
      obtain ⟨o, ho, hout⟩ := h
      have hoc := opStr_eq_some ho
      subst hoc
      subst hout
      simp [affineCigarScore, flatFwd]
  | cons c rest ih =>
    intro op count acc out h hz
    by_cases hco : c = op
    · have hcnz : count ≠ 0 := fun h0 => (hz h0 c (List.mem_cons_self c rest)) hco
      rw [rleGo, if_pos hco] at h
      have heq := ih op (count + 1) acc out h (fun h0 => absurd h0 (by omega))
      rw [heq, runScore_succ ms mms go ge op count hcnz]
      subst hco
      simp only [flatFwd, beq_self_eq_true]
      ring
    · have hbeq : (op == c) = false := by
        simp only [beq_eq_false_iff_ne, ne_eq]
        exact fun he => hco he.symm
      by_cases hc : count = 0
      · rw [rleGo, if_neg hco, if_neg (by omega)] at h
        have heq := ih c 1 acc out h (fun h0 => absurd h0 (by omega))
        rw [heq, runScore_one]
        simp only [flatFwd, hbeq, hc, runScore_zero]
        ring
      · rw [rleGo, if_neg hco, if_pos hc] at h
        rw [Option.bind_eq_some] at h
        obtain ⟨o, ho, hrec⟩ := h
        have hoc := opStr_eq_some ho
        subst hoc
        have heq := ih c 1 (acc ++ [⟨o, count⟩]) out hrec (fun h0 => absurd h0 (by omega))
        rw [heq, runScore_one]
        simp only [affineCigarScore, List.map_append, List.sum_append, List.map_cons,
          List.sum_cons, List.map_nil, List.sum_nil, flatFwd, hbeq]
        ring

theorem flatFwd_concat (ms mms go ge : Int) (xs : List Char) :
    ∀ (p c : Char), flatFwd ms mms go ge (xs ++ [c]) p =
      flatFwd ms mms go ge xs p + affCharScore ms mms go ge c (xs.getLastD p == c) := by
  induction xs with
  | nil =>
    intro p c
    simp only [List.nil_append, flatFwd, List.getLastD_nil]
    ring
  | cons x xs ih =>
    intro p c
    simp only [List.cons_append, flatFwd, List.append_eq, ih x c, List.getLastD_cons]
    ring

/-- The forward affine score of the reversed stream equals the backward
(lookahead) affine score of the stream, for streams free of the null pending
character. -/
theorem flatFwd_reverse_eq_affFlat (ms mms go ge : Int) (l : List Char)
    (hval : ∀ c ∈ l, c ≠ '\x00') :
    flatFwd ms mms go ge l.reverse '\x00' = affFlat ms mms go ge l := by
  induction l with
  | nil => rfl
  | cons c rest ih =>
    have hc : c ≠ '\x00' := hval c (List.mem_cons_self c rest)
    rw [List.reverse_cons, flatFwd_concat,
      ih (fun x hx => hval x (List.mem_cons_of_mem _ hx))]
    have hb : (rest.reverse.getLastD '\x00' == c) = (rest.head? == some c) := by
      rw [List.getLastD_eq_getLast?, List.getLast?_reverse]
      cases hrest : rest.head? with
      | none =>
        simp only [Option.getD_none]
        rw [show ('\x00' == c) = false from by
          simp only [beq_eq_false_iff_ne, ne_eq]
          exact fun he => hc he.symm]
        rfl
      | some x => rfl
    simp only [affFlat, hb]
    ring

theorem affFlat_skip_S (ms mms go ge : Int) (b : Bool) :
    affCharScore ms mms go ge 'S' b = 0 := rfl

theorem affFlat_skip_N (ms mms go ge : Int) (b : Bool) :
    affCharScore ms mms go ge 'N' b = 0 := rfl

theorem affFlat_skips (ms mms go ge : Int) (a b : Nat) (w : List Char) :
    affFlat ms mms go ge
      (List.replicate a 'S' ++ List.replicate b 'N' ++ w) = affFlat ms mms go ge w := by
  induction a with
  | zero =>
    simp only [List.replicate_zero, List.nil_append]
    induction b with
    | zero => simp
    | succ b ihb =>
      simp only [List.replicate_succ, List.cons_append, List.append_eq, affFlat,
        affFlat_skip_N, ihb, zero_add]
  | succ a iha =>
    simp only [List.replicate_succ, List.cons_append, List.append_eq, affFlat,
      affFlat_skip_S, iha, zero_add]

/-- The backward walk, when it emits at all with both indices in range,
starts with the op it read at its starting cell. -/
theorem swWalkF_head (m' : Nat) (edits : List Char) (fuel : Nat) (i j : Int)
    (w : List Char) (hij : ¬(i < 0 ∨ j < 0)) (hw : swWalkF m' edits fuel i j = some w) :
    w.head? = some (edits.getD (m' * i.toNat + j.toNat) '?') := by
  cases fuel with
  | zero =>
    rw [swWalkF, if_neg hij] at hw
    cases hw
  | succ fuel =>
    rw [swWalkF, if_neg hij] at hw
    by_cases h1 : edits.getD (m' * i.toNat + j.toNat) '?' = 'M' ∨
        edits.getD (m' * i.toNat + j.toNat) '?' = '=' ∨
        edits.getD (m' * i.toNat + j.toNat) '?' = 'X'
    · rw [if_pos h1, Option.map_eq_some'] at hw
      obtain ⟨w', _, hwc⟩ := hw
      subst hwc
      rfl
    · rw [if_neg h1] at hw
      by_cases h2 : edits.getD (m' * i.toNat + j.toNat) '?' = 'D'
      · rw [if_pos h2, Option.map_eq_some'] at hw
        obtain ⟨w', _, hwc⟩ := hw
        subst hwc
        rfl
      · rw [if_neg h2] at hw
        by_cases h3 : edits.getD (m' * i.toNat + j.toNat) '?' = 'I'
        · rw [if_pos h3, Option.map_eq_some'] at hw
          obtain ⟨w', _, hwc⟩ := hw
          subst hwc
          rfl
        · rw [if_neg h3] at hw
          by_cases h4 : edits.getD (m' * i.toNat + j.toNat) '?' = 'T'
          · rw [if_pos h4, Option.map_eq_some'] at hw
            obtain ⟨w', _, hwc⟩ := hw
            subst hwc
            rfl
          · rw [if_neg h4] at hw
            cases hw

/-- Every symbol the backward walk emits differs from the null character. -/
theorem swWalkF_ne_null (m' : Nat) (edits : List Char) :
    ∀ (fuel : Nat) (i j : Int) (w : List Char),
      swWalkF m' edits fuel i j = some w → ∀ c ∈ w, c ≠ '\x00' := by
  intro fuel
  induction fuel with
  | zero =>
    intro i j w hw c hcm
    by_cases hij : i < 0 ∨ j < 0
    · rw [swWalkF, if_pos hij] at hw
      cases hw
      rcases List.mem_append.mp hcm with hm | hm <;>
        · rw [List.eq_of_mem_replicate hm]
          decide
    · rw [swWalkF, if_neg hij] at hw
      cases hw
  | succ fuel ih =>
    intro i j w hw c hcm
    by_cases hij : i < 0 ∨ j < 0
    · rw [swWalkF, if_pos hij] at hw
      cases hw
      rcases List.mem_append.mp hcm with hm | hm <;>
        · rw [List.eq_of_mem_replicate hm]
          decide
    · rw [swWalkF, if_neg hij] at hw
      by_cases h1 : edits.getD (m' * i.toNat + j.toNat) '?' = 'M' ∨
          edits.getD (m' * i.toNat + j.toNat) '?' = '=' ∨
          edits.getD (m' * i.toNat + j.toNat) '?' = 'X'
      · rw [if_pos h1, Option.map_eq_some'] at hw
        obtain ⟨w', hw', hwc⟩ := hw
        subst hwc
        rcases List.mem_cons.mp hcm with hm | hm
        · subst hm
          rcases h1 with h | h | h <;> · rw [h]; decide
        · exact ih _ _ w' hw' c hm
      · rw [if_neg h1] at hw
        by_cases h2 : edits.getD (m' * i.toNat + j.toNat) '?' = 'D'
        · rw [if_pos h2, Option.map_eq_some'] at hw
          obtain ⟨w', hw', hwc⟩ := hw
          subst hwc
          rcases List.mem_cons.mp hcm with hm | hm
          · subst hm; rw [h2]; decide
          · exact ih _ _ w' hw' c hm
        · rw [if_neg h2] at hw
          by_cases h3 : edits.getD (m' * i.toNat + j.toNat) '?' = 'I'
          · rw [if_pos h3, Option.map_eq_some'] at hw
            obtain ⟨w', hw', hwc⟩ := hw
            subst hwc
            rcases List.mem_cons.mp hcm with hm | hm
            · subst hm; rw [h3]; decide
            · exact ih _ _ w' hw' c hm
          · rw [if_neg h3] at hw
            by_cases h4 : edits.getD (m' * i.toNat + j.toNat) '?' = 'T'
            · rw [if_pos h4, Option.map_eq_some'] at hw
              obtain ⟨w', hw', hwc⟩ := hw
              subst hwc
              rcases List.mem_cons.mp hcm with hm | hm
              · subst hm; rw [h4]; decide
              · exact ih _ _ w' hw' c hm
            · rw [if_neg h4] at hw
              cases hw

/-- The walk's base case, independent of the fuel. -/
theorem swWalkF_base (m' : Nat) (edits : List Char) (fuel : Nat) (i j : Int)
    (hij : i < 0 ∨ j < 0) :
    swWalkF m' edits fuel i j =
      some (List.replicate (j + 1).toNat 'N' ++ List.replicate (i + 1).toNat 'S') := by
  cases fuel <;> rw [swWalkF, if_pos hij]

theorem gotohFill_rows_shape (ms mms go ge : Int) (s2 : List Char) :
    ∀ (s1 : List Char) (prev prevG2 : List Int) (r : List Int),
      r ∈ (gotohFill ms mms go ge s2 s1 prev prevG2).1 → ∃ t, r = 0 :: t := by
  intro s1
  induction s1 with
  | nil => intro prev prevG2 r hr; simp [gotohFill] at hr
  | cons c1 t ih =>
    intro prev prevG2 r hr
    simp only [gotohFill, List.mem_cons] at hr
    rcases hr with hr | hr
    · exact ⟨_, hr⟩
    · exact ih _ _ r hr

theorem gotoh_rows_left (ms mms go ge : Int) (s2 s1 : List Char) (m : Nat)
    (prev prevG2 : List Int) (a : Nat) :
    ((List.replicate (m + 1) (0 : Int) ::
        (gotohFill ms mms go ge s2 s1 prev prevG2).1).getD a []).getD 0 0 = 0 := by
  cases a with
  | zero => rw [List.getD_cons_zero]; exact replicate_getD_zero _ _
  | succ a =>
    rw [List.getD_cons_succ]
    rcases hg : (gotohFill ms mms go ge s2 s1 prev prevG2).1[a]? with _ | r
    · rw [List.getD_eq_getElem?_getD ((gotohFill ms mms go ge s2 s1 prev prevG2).1) a, hg]
      rfl
    · rw [List.getD_eq_getElem?_getD ((gotohFill ms mms go ge s2 s1 prev prevG2).1) a, hg]
      obtain ⟨t, ht⟩ := gotohFill_rows_shape ms mms go ge s2 s1 prev prevG2 r
        (List.getElem?_mem hg)
      subst ht
      rfl

/-- Telescoping the affine backward walk: when every step is
affine-value-consistent, the backward (lookahead) affine score of the
emitted symbols equals the DP value at the starting cell. -/
theorem gotohWalk_telescope (m' : Nat) (edits : List Char) (rows : List (List Int))
    (ms mms go ge : Int)
    (H0 : ∀ k : Nat, (rows.getD 0 []).getD k 0 = 0)
    (H1 : ∀ a : Nat, (rows.getD a []).getD 0 0 = 0) :
    ∀ (fuel : Nat) (i j : Int) (w : List Char),
      gotohWalkOkF m' edits rows ms mms go ge fuel i j = true →
      swWalkF m' edits fuel i j = some w →
      affFlat ms mms go ge w = cellAt rows (i + 1) (j + 1) := by
  have hbase : ∀ (i j : Int), i < 0 ∨ j < 0 → cellAt rows (i + 1) (j + 1) = 0 := by
    intro i j hij
    rcases hij with hij | hij
    · have : (i + 1).toNat = 0 := by omega
      rw [cellAt, this]
      exact H0 _
    · have : (j + 1).toNat = 0 := by omega
      rw [cellAt, this]
      exact H1 _
  have hNS : ∀ (a b : Nat),
      affFlat ms mms go ge (List.replicate a 'N' ++ List.replicate b 'S') = 0 := by
    intro a
    induction a with
    | zero =>
      intro b
      simp only [List.replicate_zero, List.nil_append]
      induction b with
      | zero => rfl
      | succ b ihb =>
        simp only [List.replicate_succ, affFlat, affFlat_skip_S, ihb, zero_add]
    | succ a iha =>
      intro b
      simp only [List.replicate_succ, List.cons_append, List.append_eq, affFlat,
        affFlat_skip_N, iha, zero_add]
  have hskips : ∀ (i j : Int),
      affFlat ms mms go ge
        (List.replicate (j + 1).toNat 'N' ++ List.replicate (i + 1).toNat 'S') = 0 := by
    intro i j
    exact hNS _ _
  intro fuel
  induction fuel with
  | zero =>
    intro i j w hok hw
    by_cases hij : i < 0 ∨ j < 0
    · rw [swWalkF, if_pos hij] at hw
      cases hw
      rw [hskips, hbase i j hij]
    · rw [gotohWalkOkF, if_neg hij] at hok
      cases hok
  | succ fuel ih =>
    intro i j w hok hw
    by_cases hij : i < 0 ∨ j < 0
    · rw [swWalkF, if_pos hij] at hw
      cases hw
      rw [hskips, hbase i j hij]
    · rw [swWalkF, if_neg hij] at hw
      rw [gotohWalkOkF, if_neg hij] at hok
      set op := edits.getD (m' * i.toNat + j.toNat) '?' with hop
      by_cases h1 : op = '='
      · rw [if_pos (Or.inr (Or.inl h1))] at hw
        rw [if_pos h1, Bool.and_eq_true, beq_iff_eq] at hok
        rw [Option.map_eq_some'] at hw
        obtain ⟨w', hw', hwc⟩ := hw
        subst hwc
        have hsum := ih (i - 1) (j - 1) w' hok.2 hw'
        have hco : i - 1 + 1 = i := by ring
        have hco2 : j - 1 + 1 = j := by ring
        rw [hco, hco2] at hsum
        simp only [affFlat, h1, affCharScore_match, hsum]
        rw [hok.1]
        ring
      · by_cases h2 : op = 'X'
        · rw [if_pos (Or.inr (Or.inr h2))] at hw
          rw [if_neg h1, if_pos h2, Bool.and_eq_true, beq_iff_eq] at hok
          rw [Option.map_eq_some'] at hw
          obtain ⟨w', hw', hwc⟩ := hw
          subst hwc
          have hsum := ih (i - 1) (j - 1) w' hok.2 hw'
          have hco : i - 1 + 1 = i := by ring
          have hco2 : j - 1 + 1 = j := by ring
          rw [hco, hco2] at hsum
          simp only [affFlat, h2, affCharScore_mismatch, hsum]
          rw [hok.1]
          ring
        · by_cases h3 : op = 'M'
          · rw [if_neg h1, if_neg h2, if_neg (by rw [h3]; decide),
              if_neg (by rw [h3]; decide)] at hok
            cases hok
          · by_cases h4 : op = 'D'
            · rw [if_neg (by simp [h1, h2, h3]), if_pos h4] at hw
              rw [if_neg h1, if_neg h2, if_neg (by rw [h4]; decide), if_pos h4,
                Bool.and_eq_true, beq_iff_eq] at hok
              rw [Option.map_eq_some'] at hw
              obtain ⟨w', hw', hwc⟩ := hw
              subst hwc
              have hsum := ih (i - 1) j w' hok.2 hw'
              have hco : i - 1 + 1 = i := by ring
              rw [hco] at hsum
              have hhead : (w'.head? == some 'D') =
                  (decide (0 ≤ i - 1) &&
                    (edits.getD (m' * (i - 1).toNat + j.toNat) '?' == 'D')) := by
                by_cases hi1 : i - 1 < 0
                · have hd : decide (0 ≤ i - 1) = false := by
                    simp only [decide_eq_false_iff_not]
                    omega
                  rw [hd, Bool.false_and]
                  have hb := swWalkF_base m' edits fuel (i - 1) j (Or.inl hi1)
                  rw [hb] at hw'
                  cases hw'
                  have hj1 : (j + 1).toNat = j.toNat + 1 := by omega
                  rw [hj1, List.replicate_succ, List.cons_append]
                  rfl
                · have hd : decide (0 ≤ i - 1) = true := by
                    simp only [decide_eq_true_eq]
                    omega
                  rw [hd, Bool.true_and,
                    swWalkF_head m' edits fuel (i - 1) j w' (by omega) hw']
                  rfl
              simp only [affFlat, h4, affCharScore_del, hsum, hhead]
              rw [hok.1]
              ring
            · by_cases h5 : op = 'I'
              · rw [if_neg (by simp [h1, h2, h3]), if_neg h4, if_pos h5] at hw
                rw [if_neg h1, if_neg h2, if_pos h5, Bool.and_eq_true, beq_iff_eq] at hok
                rw [Option.map_eq_some'] at hw
                obtain ⟨w', hw', hwc⟩ := hw
                subst hwc
                have hsum := ih i (j - 1) w' hok.2 hw'
                have hco2 : j - 1 + 1 = j := by ring
                rw [hco2] at hsum
                have hhead : (w'.head? == some 'I') =
                    (decide (0 ≤ j - 1) &&
                      (edits.getD (m' * i.toNat + (j - 1).toNat) '?' == 'I')) := by
                  by_cases hj1 : j - 1 < 0
                  · have hd : decide (0 ≤ j - 1) = false := by
                      simp only [decide_eq_false_iff_not]
                      omega
                    rw [hd, Bool.false_and]
                    have hb := swWalkF_base m' edits fuel i (j - 1) (Or.inr hj1)
                    rw [hb] at hw'
                    cases hw'
                    have hj0 : (j - 1 + 1).toNat = 0 := by omega
                    have hi1 : (i + 1).toNat = i.toNat + 1 := by omega
                    rw [hj0, hi1, List.replicate_zero, List.nil_append,
                      List.replicate_succ]
                    rfl
                  · have hd : decide (0 ≤ j - 1) = true := by
                      simp only [decide_eq_true_eq]
                      omega
                    rw [hd, Bool.true_and,
                      swWalkF_head m' edits fuel i (j - 1) w' (by omega) hw']
                    rfl
                simp only [affFlat, h5, affCharScore_ins, hsum, hhead]
                rw [hok.1]
                ring
              · rw [if_neg h1, if_neg h2, if_neg h5, if_neg h4] at hok
                cases hok

/-- Telescoping the whole of `_roll_cigar` under the affine gap model. -/
theorem rollCigar_affine_telescope (n m mi mj : Nat) (edits : List Char)
    (rows : List (List Int)) (ms mms go ge : Int) (cig : List CigarOp)
    (H0 : ∀ k : Nat, (rows.getD 0 []).getD k 0 = 0)
    (H1 : ∀ a : Nat, (rows.getD a []).getD 0 0 = 0)
    (hok : gotohWalkOk (mj + 1) edits rows ms mms go ge (mi : Int) (mj : Int) = true)
    (hc : rollCigar n m mi mj edits = some cig) :
    affineCigarScore ms mms go ge cig = cellAt rows ((mi : Int) + 1) ((mj : Int) + 1) := by
  rw [rollCigar, Option.bind_eq_some] at hc
  obtain ⟨st, hst, henc⟩ := hc
  rw [igarStream, Option.map_eq_some'] at hst
  obtain ⟨w, hwalk, hstw⟩ := hst
  subst hstw
  rw [swWalk] at hwalk
  rw [gotohWalkOk] at hok
  have hval : ∀ c ∈ (List.replicate (n - 1 - mi) 'S' ++
      (List.replicate (m - 1 - mj) 'N' ++ w)), c ≠ '\x00' := by
    intro c hcm
    rcases List.mem_append.mp hcm with hm | hm
    · rw [List.eq_of_mem_replicate hm]
      decide
    · rcases List.mem_append.mp hm with hm2 | hm2
      · rw [List.eq_of_mem_replicate hm2]
        decide
      · exact swWalkF_ne_null _ _ _ _ _ w hwalk c hm2
  have hsum := rleGo_affine_sum ms mms go ge
    (List.replicate (n - 1 - mi) 'S' ++ List.replicate (m - 1 - mj) 'N' ++ w).reverse
    '\x00' 0 [] cig henc
    (fun _ c hcm => hval c (by simpa using List.mem_reverse.mp hcm))
  rw [flatFwd_reverse_eq_affFlat ms mms go ge _ (by simpa using hval),
    affFlat_skips, runScore_zero] at hsum
  have htel := gotohWalk_telescope (mj + 1) edits rows ms mms go ge H0 H1
    (((mi : Int) + (mj : Int) + 2).toNat) (mi : Int) (mj : Int) w hok hwalk
  rw [hsum, htel]
  simp [affineCigarScore]

/-- Whenever the backward walk of `smith_waterman_gotoh` is value-consistent
under the applicable gap model, the affine per-run contribution sum of the
returned script equals the returned score. -/
theorem gotoh_score_of_consistent (s1 s2 : List Char) (ms mms go ge sc : Int)
    (cig : List CigarOp)
    (h : smith_waterman_gotoh s1 s2 ms mms go ge = some (sc, cig))
    (hok : gotohConsistent s1 s2 ms mms go ge = true) :
    affineCigarScore ms mms go ge cig = sc := by
  by_cases hge : go = ge
  · subst hge
    rw [smith_waterman_gotoh, if_pos rfl] at h
    rw [gotohConsistent, if_pos rfl] at hok
    rw [affineCigarScore_gap_eq]
    exact sw_score_of_consistent s1 s2 ms mms go sc cig h hok
  · by_cases hnm : s1.length = 0 ∨ s2.length = 0
    · simp only [smith_waterman_gotoh, if_neg hge, if_pos hnm] at h
      cases h
    · simp only [smith_waterman_gotoh, if_neg hge, if_neg hnm, Option.map_eq_some'] at h
      simp only [gotohConsistent, if_neg hge, if_neg hnm] at hok
      obtain ⟨c, hc, heq⟩ := h
      set m := s2.length with hm
      set row0 : List Int := List.replicate (m + 1) 0 with hrow0
      set F := gotohFill ms mms go ge s2 s1 row0 row0 with hF
      set b := scanMax F.2.2 0 (0, 0) with hb
      set mi := b.2 / m with hmi
      set mj := b.2 % m with hmj
      have H0 : ∀ k : Nat, ((row0 :: F.1).getD 0 []).getD k 0 = 0 := by
        intro k
        rw [hrow0]
        exact sw_rows_top m F.1 k
      have H1 : ∀ a : Nat, ((row0 :: F.1).getD a []).getD 0 0 = 0 := by
        intro a
        rw [hF, hrow0]
        exact gotoh_rows_left ms mms go ge s2 s1 m _ _ a
      have htel := rollCigar_affine_telescope s1.length m mi mj F.2.1 (row0 :: F.1)
        ms mms go ge c H0 H1 hok hc
      have hcg : c = cig := congrArg Prod.snd heq
      have e1 : ((mi : Int) + 1).toNat = mi + 1 := by
        rw [show ((mi : Int) + 1) = ((mi + 1 : Nat) : Int) from by push_cast; ring]
        simp
      have e2 : ((mj : Int) + 1).toNat = mj + 1 := by
        rw [show ((mj : Int) + 1) = ((mj + 1 : Nat) : Int) from by push_cast; ring]
        simp
      rw [← hcg, htel, cellAt, e1, e2]
      exact congrArg Prod.fst heq

/-- C4 (amended): for both engines, whenever every step of the backward walk
from the best cell is value-consistent under the applicable gap model (for
`smith_waterman` each recorded op's candidate equals the stored cell value;
for `smith_waterman_gotoh` an `'I'`/`'D'` cell must differ from its
predecessor by `gap_extend_score` when the next walked cell continues the
same gap and by `gap_open_score` otherwise), summing `match_score` per `'='`,
`mismatch_score` per `'X'` and the applicable gap cost per `'I'`/`'D'` symbol
or run — `gap_score` per symbol for `smith_waterman`,
`gap_open_score + (k-1) * gap_extend_score` per `k`-run for the affine engine
— with skips contributing nothing, yields exactly the returned score.  The
unconditional claim is false (`script_score_sum_counterexample`): the walk
can cross cells clamped to zero, whose recorded op does not account for the
cell's value. -/
theorem script_score_sum_of_consistent (s1 s2 : List Char) (ms mms g go ge sc sc' : Int)
    (cig cig' : List CigarOp) :
    (smith_waterman s1 s2 ms mms g = some (sc, cig) →
      swConsistent s1 s2 ms mms g = true → cigarScore ms mms g cig = sc) ∧
    (smith_waterman_gotoh s1 s2 ms mms go ge = some (sc', cig') →
      gotohConsistent s1 s2 ms mms go ge = true →
      affineCigarScore ms mms go ge cig' = sc') :=
  ⟨fun h hok => sw_score_of_consistent s1 s2 ms mms g sc cig h hok,
   fun h hok => gotoh_score_of_consistent s1 s2 ms mms go ge sc' cig' h hok⟩

set_option maxRecDepth 4000 in
/-- Witness for the amended C4: the spec's second worked example for the
linear engine, and the source's affine doctest (`match_score=4`, gap open
`-2`, gap extend `-1`, score `6` with script `1=2D1=2D1=`, i.e.
`3*4 + 2*(-2 + -1) = 6`) for the affine engine; both walks are
value-consistent. -/
theorem script_score_sum_of_consistent_witness :
    cigarScore 2 (-1) (-1) [⟨'=', 1⟩, ⟨'D', 1⟩, ⟨'=', 1⟩, ⟨'D', 1⟩, ⟨'=', 1⟩] = 4 ∧
    affineCigarScore 4 (-1) (-2) (-1)
      [⟨'=', 1⟩, ⟨'D', 2⟩, ⟨'=', 1⟩, ⟨'D', 2⟩, ⟨'=', 1⟩] = 6 :=
  ⟨(script_score_sum_of_consistent "abcbd".toList "acd".toList 2 (-1) (-1) (-2) (-1) 4 0
      [⟨'=', 1⟩, ⟨'D', 1⟩, ⟨'=', 1⟩, ⟨'D', 1⟩, ⟨'=', 1⟩] []).1 (by decide) (by decide),
   (script_score_sum_of_consistent "abbcbbd".toList "acd".toList 4 (-1) (-1) (-2) (-1) 0 6
      [] [⟨'=', 1⟩, ⟨'D', 2⟩, ⟨'=', 1⟩, ⟨'D', 2⟩, ⟨'=', 1⟩]).2 (by decide) (by decide)⟩

end Edits
